import Mathlib

/-!
Shallow embedding of `codememo/objects.py` (classes `Snippet`, `ReferenceInfo`,
`Node`, `NodeLink`, `NodeCollection`).

Python objects are mutable and heavily aliased (a `Node` appears in other
nodes' `roots`/`leaves` lists, and a node may be its own leaf).  Following the
arena style, nodes live in a `Store` (a list of nodes keyed by their `uuid`,
modelled as `Nat`: `str(uuid)` is a bijection, so nothing is lost), and every
edge list stores uuids.  Mutating methods become functions
`Store → ... → Store × Option PyError`: the returned store is the heap at the
moment the method returns or raises (Python exceptions do not roll back state,
and every modelled raise site in the source fires before the method mutates,
except where noted).  Python `dict`s (`ref_infos`, and the uuid-keyed dicts in
`NodeCollection.from_dict`) are insertion-ordered association lists with
overwrite-in-place semantics, as in CPython.
-/

namespace Codememo

/-- `Snippet` (objects.py 45-90) with the constructor defaults already applied
(`lang='raw'`, `path=''`, `url=''`, `line_start=1` replace `None`); `to_dict`
emits exactly these six fields, and `from_dict` of such full data rebuilds the
same snippet, so serialization is the identity on this record. -/
structure Snippet where
  name : String
  content : String
  lineStart : Int
  lang : String
  path : String
  url : String
deriving DecidableEq

/-- `Snippet.n_lines` (objects.py 74-76): `content.count('\n') + 1`. -/
def Snippet.nLines (s : Snippet) : Nat := s.content.toList.count '\n' + 1

/-- `ReferenceInfo` (objects.py 93-122): it wraps a `RelativeLineInfo` with a
`start` and an optional `stop`; `to_dict`/`from_dict` move exactly these two
numbers, so the record models both the object and its dict form. -/
structure ReferenceInfo where
  refStart : Int
  refStop : Option Int
deriving DecidableEq

/-- `Node` (objects.py 125-172).  `uuid` is the stable identity; `roots` and
`leaves` hold uuids of other nodes; `ref_infos` is an insertion-ordered dict
keyed by root uuid. -/
structure Node where
  uuid : Nat
  snippet : Snippet
  comment : String
  roots : List Nat
  leaves : List Nat
  refInfos : List (Nat × ReferenceInfo)
deriving DecidableEq

/-- The arena of all live `Node` objects, keyed by `uuid`. -/
abbrev Store := List Node

/-- Every exception the modelled code can raise, tagged by its raise site.
`rangeValueError` and `indexValueError` are both Python `ValueError`
(`add_leaf`'s range checks and `list.index` on a missing element);
`nodeReferenceError` is `NodeReferenceException`; the `removal...`
constructors are the `NodeRemovalException` raise sites of
`NodeCollection.remove_node`; `typeError` is the `TypeError` from evaluating
`None < 1`; `keyError` is a Python `KeyError` (dict lookup misses). -/
inductive PyError where
  | typeError
  | rangeValueError
  | indexValueError
  | nodeReferenceError
  | removalNotInCollection
  | removalRemainingLeaves
  | keyError
deriving DecidableEq

/-- Resolve a uuid to its node, as Python does implicitly through object
references (`find?` returns the first match; stores built through the API have
unique uuids). -/
def findNode (s : Store) (i : Nat) : Option Node :=
  s.find? (fun n => n.uuid == i)

/-- Apply an in-place mutation to the node with uuid `i`. -/
def updateNode (s : Store) (i : Nat) (f : Node → Node) : Store :=
  s.map (fun n => if n.uuid = i then f n else n)

/-- The uuids of a store, in order. -/
def idsOf (s : Store) : List Nat := s.map (fun n => n.uuid)

/-- Python dict lookup `d.get(k)` / `d[k]`. -/
def pyDictGet? {α : Type} (d : List (Nat × α)) (k : Nat) : Option α :=
  (d.find? (fun p => p.1 == k)).map (fun p => p.2)

/-- Python `k in d`. -/
def pyDictHas {α : Type} (d : List (Nat × α)) (k : Nat) : Bool :=
  d.any (fun p => p.1 == k)

/-- Python `d[k] = v`: overwrite in place when the key exists, else append. -/
def pyDictSet {α : Type} (d : List (Nat × α)) (k : Nat) (v : α) : List (Nat × α) :=
  if pyDictHas d k then d.map (fun p => if p.1 == k then (k, v) else p)
  else d ++ [(k, v)]

/-- Python `d.pop(k)` (the removal part; the caller checks presence). -/
def pyDictPop {α : Type} (d : List (Nat × α)) (k : Nat) : List (Nat × α) :=
  d.eraseP (fun p => p.1 == k)

/-- The condition `ref_stop and ref_stop > n_lines` of objects.py 242: `None`
and `0` are falsy, so the bound is only compared for a nonzero stop. -/
def stopExceeds (refStop : Option Int) (nLines : Int) : Bool :=
  match refStop with
  | none => false
  | some v => if v = 0 then false else decide (v > nLines)

/-- `Node.set_root` (objects.py 174-181), called as `leaf.set_root(root, ...)`:
raises `NodeReferenceException` when `root` is already in `leaf.roots`
(before mutating anything), else appends `root` to `leaf.roots` and stores the
`ReferenceInfo` under `root.uuid`.  (The `isinstance` guard of line 175 is
unrepresentable in the typed model.) -/
def setRoot (s : Store) (leafId rootId : Nat) (refStart : Int)
    (refStop : Option Int) : Store × Option PyError :=
  match findNode s leafId with
  | none => (s, some .keyError)
  | some leaf =>
    if rootId ∈ leaf.roots then (s, some .nodeReferenceError)
    else
      (updateNode s leafId (fun n =>
        { n with roots := n.roots ++ [rootId],
                 refInfos := pyDictSet n.refInfos rootId ⟨refStart, refStop⟩ }),
       none)

/-- `Node.reset_root` (objects.py 183-191): `roots.index` raises `ValueError`
when the root is absent; otherwise the first occurrence is popped from
`roots` and its key is popped from `ref_infos` (a `KeyError` there would leave
`roots` already popped, matching the returned store). -/
def resetRoot (s : Store) (selfId rootId : Nat) : Store × Option PyError :=
  match findNode s selfId with
  | none => (s, some .keyError)
  | some self_ =>
    if rootId ∈ self_.roots then
      let s1 := updateNode s selfId (fun n => { n with roots := n.roots.erase rootId })
      if pyDictHas self_.refInfos rootId then
        (updateNode s1 selfId (fun n => { n with refInfos := pyDictPop n.refInfos rootId }),
         none)
      else (s1, some .keyError)
    else (s, some .indexValueError)

/-- `Node.add_leaf` (objects.py 193-247), called as
`root.add_leaf(leaf, ref_start, ref_stop)`.  `n_lines` is read from the
calling node's own snippet (line 236: `self.snippet.n_lines`).  `ref_start` is
`Option Int` because `NodeCollection.add_leaf_reference` defaults it to
`None`, and `None < 1` raises `TypeError`.  On success the leaf's
`set_root` runs first, then `leaf` is appended to the caller's `leaves`. -/
def addLeaf (s : Store) (selfId leafId : Nat) (refStart : Option Int)
    (refStop : Option Int) : Store × Option PyError :=
  match findNode s selfId with
  | none => (s, some .keyError)
  | some self_ =>
    let nLines : Int := self_.snippet.nLines
    match refStart with
    | none => (s, some .typeError)
    | some rs =>
      if rs < 1 ∨ rs > nLines then (s, some .rangeValueError)
      else if stopExceeds refStop nLines then (s, some .rangeValueError)
      else
        match setRoot s leafId selfId rs refStop with
        | (s1, some e) => (s1, some e)
        | (s1, none) =>
          (updateNode s1 selfId (fun n => { n with leaves := n.leaves ++ [leafId] }), none)

/-- `Node.remove_leaf` together with `remove_leaf_by_index`
(objects.py 249-269): `leaves.index` raises `ValueError` when the node is not
a leaf; otherwise the first occurrence is popped from `leaves` and
`leaf.reset_root(self)` runs. -/
def removeLeaf (s : Store) (selfId leafId : Nat) : Store × Option PyError :=
  match findNode s selfId with
  | none => (s, some .keyError)
  | some self_ =>
    if leafId ∈ self_.leaves then
      let s1 := updateNode s selfId (fun n => { n with leaves := n.leaves.erase leafId })
      resetRoot s1 leafId selfId
    else (s, some .indexValueError)

/-- `NodeLink` (objects.py 272-296), with the two node references replaced by
their uuids (Python compares the nodes by identity). -/
structure NodeLink where
  root : Nat
  rootSlot : Nat
  leaf : Nat
  leafSlot : Nat
deriving DecidableEq

/-- `NodeCollection.add_leaf_reference` (objects.py 343-360): `nodes.index`
raises an uncaught `ValueError` when `root` is not a member; the inner
`add_leaf` call sits in `try/except ValueError`, whose handler re-raises
`NodeReferenceException` — any other exception (notably the `TypeError` from
a defaulted `ref_start=None`) propagates unchanged. -/
def addLeafReference (s : Store) (order : List Nat) (rootId targetId : Nat)
    (refStart : Option Int) (refStop : Option Int) : Store × Option PyError :=
  if rootId ∈ order then
    match addLeaf s rootId targetId refStart refStop with
    | (s1, some .rangeValueError) => (s1, some .nodeReferenceError)
    | (s1, some .indexValueError) => (s1, some .nodeReferenceError)
    | r => r
  else (s, some .indexValueError)

/-- The `for root in target.roots: root.remove_leaf(target)` loop of
`NodeCollection.remove_node` (objects.py 380-381).  CPython iterates the list
by index while `remove_leaf → reset_root` pops from that same list, so the
loop reads `target.roots` afresh at each index.  `fuel` only bounds the
iteration count; `roots.length + 1` is always enough because the index grows
and the list never does. -/
def removeNodeLoop (s : Store) (targetId : Nat) : Nat → Nat → Store × Option PyError
  | _, 0 => (s, none)
  | i, fuel + 1 =>
    match findNode s targetId with
    | none => (s, some .keyError)
    | some t =>
      if h : i < t.roots.length then
        match removeLeaf s (t.roots.get ⟨i, h⟩) targetId with
        | (s1, some e) => (s1, some e)
        | (s1, none) => removeNodeLoop s1 targetId (i + 1) fuel
      else (s, none)

/-- `NodeCollection.remove_node` (objects.py 362-381).  `order` is the
collection's node list (uuids); the arena `s` still holds the popped node
while the cleanup loop runs, exactly as the live Python object does. -/
def removeNode (s : Store) (order : List Nat) (targetId : Nat) :
    (Store × List Nat) × Option PyError :=
  if targetId ∈ order then
    match findNode s targetId with
    | none => ((s, order), some .keyError)
    | some t =>
      if t.leaves.length ≠ 0 then ((s, order), some .removalRemainingLeaves)
      else
        let order1 := order.erase targetId
        let r := removeNodeLoop s targetId 0 (t.roots.length + 1)
        ((r.1, order1), r.2)
  else ((s, order), some .removalNotInCollection)

/-- `NodeCollection.resolve_links` (objects.py 397-403) over a collection
whose node list is the store itself: one `NodeLink` per leaf edge, with
`root_slot = leaf.roots.index(node)` and `leaf_slot` the position in
`node.leaves`.  (The unreachable `none` branch stands for the `ValueError`
`list.index` would raise on a dangling edge.) -/
def resolveLinks (s : Store) : List NodeLink :=
  s.flatMap (fun node =>
    node.leaves.enum.map (fun p =>
      { root := node.uuid,
        rootSlot := match findNode s p.2 with
          | some leaf => leaf.roots.indexOf node.uuid
          | none => 0,
        leaf := p.2,
        leafSlot := p.1 }))

/-- The nested list structure built by `resolve_tree`'s inner `build_tree`
(objects.py 445-495): a Python list whose elements are either nodes or
sublists. -/
inductive PyTree where
  | node (id : Nat)
  | sub (elems : List PyTree)

/-- One unfolding of `build_tree` (objects.py 445-495), with the recursive
call abstracted as `rec`.  `build_tree` is always entered with `tree = []`,
so the function returns the list it builds from scratch; `visited` is the
shared, insertion-ordered visited set.  A leaf that `is` the node itself
contributes `[]` without recursing (line 484-485); a visited leaf returns its
fresh `[]` unchanged (line 473-474). -/
def buildTreeStep (s : Store) (rec : Nat → List Nat → List PyTree × List Nat)
    (nodeId : Nat) (visited : List Nat) : List PyTree × List Nat :=
  if nodeId ∈ visited then ([], visited)
  else
    let visited := visited ++ [nodeId]
    match findNode s nodeId with
    | none => ([PyTree.node nodeId], visited)
    | some nd =>
      if nd.leaves.length = 0 then ([PyTree.node nodeId], visited)
      else
        let r := nd.leaves.foldl
          (fun (acc : List (List PyTree) × List Nat) leafId =>
            let p := if leafId = nodeId then ([], acc.2) else rec leafId acc.2
            (acc.1 ++ [p.1], p.2))
          ([], visited)
        if r.1.length = 0 then ([PyTree.node nodeId], r.2)
        else ([PyTree.node nodeId, PyTree.sub r.1.flatten], r.2)

/-- `build_tree` with a recursion-depth budget; the budget is an artifact of
the embedding (the Python recursion bottoms out because every call adds a new
node to `visited`), and `resolveTree` supplies one that can never run out. -/
def buildTreeF (s : Store) : Nat → Nat → List Nat → List PyTree × List Nat
  | 0 => fun _ visited => ([], visited)
  | fuel + 1 => buildTreeStep s (buildTreeF s fuel)

/-- One unfolding of `build_layers` (objects.py 497-525): ensure the current
layer exists, then walk the tree, pushing plain nodes onto layer `idx` and
recursing into sublists at `idx + 1`. -/
def buildLayersStep (rec : List PyTree → List (List Nat) → Nat → List (List Nat))
    (tree : List PyTree) (layers : List (List Nat)) (idx : Nat) : List (List Nat) :=
  let layers := if layers.length < idx + 1 then layers ++ [[]] else layers
  tree.foldl (fun layers e =>
    match e with
    | PyTree.node i => layers.mapIdx (fun j lay => if j = idx then lay ++ [i] else lay)
    | PyTree.sub l => rec l layers (idx + 1)) layers

/-- `build_layers` with a depth budget (same remark as for `buildTreeF`). -/
def buildLayersF : Nat → List PyTree → List (List Nat) → Nat → List (List Nat)
  | 0 => fun _ layers _ => layers
  | fuel + 1 => buildLayersStep (buildLayersF fuel)

/-- `find_roots_and_orphans` (objects.py 527-545).  Python walks
`set(nodes) - visited`, whose iteration order is unspecified; the model fixes
the deterministic refinement that keeps the collection's node order.  A
remaining node with no roots at all goes to `orphans` (no leaves) or `roots`;
when no such root exists but nodes remain (pure cycle), the first remaining
non-orphan is promoted to an artificial root. -/
def findRootsAndOrphans (s : Store) (nodes : List Nat) (visited : List Nat) :
    List Nat × List Nat :=
  let remainings := nodes.filter (fun i => ¬ i ∈ visited)
  let p := remainings.foldl
    (fun (p : List Nat × List Nat) i =>
      match findNode s i with
      | none => p
      | some n =>
        if n.roots.length = 0 then
          if n.leaves.length = 0 then (p.1, p.2 ++ [i]) else (p.1 ++ [i], p.2)
        else p)
    ([], [])
  if p.1.length = 0 ∧ remainings.length ≠ 0 then
    match remainings.find? (fun i => ¬ i ∈ p.2) with
    | some i => ([i], p.2)
    | none => ([], p.2)
  else p

/-- The `for root in roots: trees.append(build_tree(root, [], visited))` part
of `resolve_tree` (objects.py 553-554); the visited set threads through. -/
def collectTrees (s : Store) (treeFuel : Nat) :
    List Nat → List (List PyTree) × List Nat → List (List PyTree) × List Nat
  | [], acc => acc
  | r :: rest, acc =>
    let p := buildTreeF s treeFuel r acc.2
    collectTrees s treeFuel rest (acc.1 ++ [p.1], p.2)

/-- The `while len(visited) != len(self.nodes)` loop of `resolve_tree`
(objects.py 548-554).  The budget is again an embedding artifact: each pass
visits at least one new node, so `nodes.length + 1` passes always suffice. -/
def resolveTreeLoop (s : Store) (nodes : List Nat) :
    Nat → List Nat → List (List PyTree) → List Nat → List (List PyTree) × List Nat
  | 0, _, trees, orphans => (trees, orphans)
  | fuel + 1, visited, trees, orphans =>
    if visited.length = nodes.length then (trees, orphans)
    else
      let p := findRootsAndOrphans s nodes visited
      let visited1 := p.2.foldl (fun v i => if i ∈ v then v else v ++ [i]) visited
      let q := collectTrees s (nodes.length + 1) p.1 (trees, visited1)
      resolveTreeLoop s nodes fuel q.2 q.1 (orphans ++ p.2)

/-- `NodeCollection.resolve_tree` (objects.py 443-561): build the trees, then
convert each to its list of layers, returning `(layer_collection,
orphan_nodes)`. -/
def resolveTree (s : Store) (nodes : List Nat) : List (List (List Nat)) × List Nat :=
  let p := resolveTreeLoop s nodes (nodes.length + 1) [] [] []
  (p.1.map (fun t => buildLayersF (nodes.length + 2) t [] 0), p.2)

/-- One entry of the persisted document's `nodes` list (the schema emitted by
`Node.to_dict`, objects.py 164-172); uuids are `Nat` as in the arena, and
`refInfos` reuses `ReferenceInfo` since its dict form carries the same two
numbers. -/
structure NodeData where
  uuid : Nat
  snippet : Snippet
  comment : String
  roots : List Nat
  leaves : List Nat
  refInfos : List (Nat × ReferenceInfo)
deriving DecidableEq

/-- The persisted document `{nodes: [...]}`. -/
structure CollectionData where
  nodes : List NodeData
deriving DecidableEq

/-- `Node.to_dict` (objects.py 164-172). -/
def Node.toDict (n : Node) : NodeData :=
  ⟨n.uuid, n.snippet, n.comment, n.roots, n.leaves, n.refInfos⟩

/-- `NodeCollection.to_dict` (objects.py 582-585) of a collection whose node
list is the store itself. -/
def collToDict (s : Store) : CollectionData := ⟨s.map Node.toDict⟩

/-- `Node.from_dict` (objects.py 157-162): rebuilds the node parentless —
the recorded `roots`, `leaves` and `ref_infos` entries are not read. -/
def Node.fromDict (nd : NodeData) : Node :=
  ⟨nd.uuid, nd.snippet, nd.comment, [], [], []⟩

/-- `{v['uuid']: v for v in data['nodes']}` (objects.py 568): a dict
comprehension, so later duplicates overwrite in place. -/
def mkDict (l : List NodeData) : List (Nat × NodeData) :=
  l.foldl (fun d nd => pyDictSet d nd.uuid nd) []

/-- The body of the replay loop of `NodeCollection.from_dict`
(objects.py 574-578) for one recorded edge: look up the leaf in the node
dicts (`KeyError` when absent), fetch `data_dict[leaf_uuid]['ref_infos'][node_uuid]`
(`KeyError` when absent), then `target_node.add_leaf(leaf_node, ref_info.start,
ref_stop=ref_info.stop)`. -/
def replayEdge (dd : List (Nat × NodeData)) (s : Store) (rootUuid leafUuid : Nat) :
    Store × Option PyError :=
  match pyDictGet? dd leafUuid with
  | none => (s, some .keyError)
  | some leafData =>
    match pyDictGet? leafData.refInfos rootUuid with
    | none => (s, some .keyError)
    | some ri => addLeaf s rootUuid leafUuid (some ri.refStart) ri.refStop

/-- The full replay of `from_dict`'s nested loops over the flattened list of
recorded `(root, leaf)` edges; an exception aborts the rest, as a Python
raise would. -/
def replayAll (dd : List (Nat × NodeData)) : Store → List (Nat × Nat) → Store × Option PyError
  | s, [] => (s, none)
  | s, (r, l) :: rest =>
    match replayEdge dd s r l with
    | (s1, some e) => (s1, some e)
    | (s1, none) => replayAll dd s1 rest

/-- `NodeCollection.from_dict` (objects.py 563-580): key the data by uuid,
rebuild every node parentless, then replay every recorded leaf edge; the
result is `cls(list(nodes_dict.values()))`, i.e. the arena in key order.
(The `'nodes' not in data` check of line 565 is unrepresentable in the typed
model.) -/
def fromDict (d : CollectionData) : Store × Option PyError :=
  let dd := mkDict d.nodes
  let store0 : Store := dd.map (fun p => Node.fromDict p.2)
  let pairs := dd.flatMap (fun p => p.2.leaves.map (fun l => (p.1, l)))
  replayAll dd store0 pairs

/-- All uuids a leaf-walk over `s` can ever touch: every node plus every
recorded leaf target. -/
def allIds (s : Store) : List Nat := s.flatMap (fun n => n.uuid :: n.leaves)

/-- The leaves of the node a uuid resolves to (none when it dangles). -/
def childrenOf (s : Store) (i : Nat) : List Nat :=
  match findNode s i with | none => [] | some n => n.leaves

/-- Worklist cost of one uuid: dequeuing it plus enqueuing its leaves. -/
def nodeWeight (s : Store) (i : Nat) : Nat := 1 + (childrenOf s i).length

/-- Total worklist budget still available while `acc` has been collected. -/
def capacity (s : Store) (u : List Nat) (acc : List Nat) : Nat :=
  ((u.filter (fun i => ¬ i ∈ acc)).map (nodeWeight s)).sum

/-- Deduplicated universe of uuids reachable from `start` by any leaf walk. -/
def reachUniverse (s : Store) (start : Nat) : List Nat := (start :: allIds s).dedup

/-- Worklist traversal of the leaves relation: pop a uuid, skip it when
already collected, else collect it and enqueue its leaves.  The budget is an
embedding artifact; `capacity` of the full universe plus one never runs out
(proved below). -/
def collectLeaves (s : Store) : Nat → List Nat → List Nat → List Nat
  | 0, _, acc => acc
  | _ + 1, [], acc => acc
  | fuel + 1, x :: rest, acc =>
    if x ∈ acc then collectLeaves s fuel rest acc
    else collectLeaves s fuel (rest ++ childrenOf s x) (acc ++ [x])

/-- Modelled from the spec: the reachable leaf-set that
`remove_node_and_its_leaves` removes.  The method itself is missing from
`src/codememo/objects.py` (only `tests/test_objects.py` calls it); spec §4.2
describes it as removing "`target` together with its full reachable
leaf-set, correctly handling cycles (a node already visited/removed in this
call is not revisited) and self-loops". -/
def removedSet (s : Store) (targetId : Nat) : List Nat :=
  collectLeaves s (capacity s (reachUniverse s targetId) [] + 1) [targetId] []

/-- Modelled from the spec: `NodeCollection.remove_node_and_its_leaves`
(spec §4.2), absent from `src/codememo/objects.py` — only
`tests/test_objects.py` references it.  It "recursively detaches and removes
`target` together with its full reachable leaf-set" and "returns the set of
removed nodes"; detaching means no surviving node keeps an edge or a
`ref_infos` entry pointing at a removed node. -/
def removeNodeAndItsLeaves (s : Store) (targetId : Nat) : Store × List Nat :=
  let removed := removedSet s targetId
  ((s.filter (fun n => ¬ n.uuid ∈ removed)).map (fun n =>
    { n with leaves := n.leaves.filter (fun l => ¬ l ∈ removed),
             roots := n.roots.filter (fun r => ¬ r ∈ removed),
             refInfos := n.refInfos.filter (fun p => ¬ p.1 ∈ removed) }),
   removed)

/-- Reachability along recorded leaf edges, the specification-side meaning of
"full reachable leaf-set". -/
inductive Reach (s : Store) (start : Nat) : Nat → Prop
  | refl : Reach s start start
  | step {i : Nat} {n : Node} {l : Nat} :
      Reach s start i → findNode s i = some n → l ∈ n.leaves → Reach s start l

/-- The invariants every collection built through the `Node`/`NodeCollection`
API maintains: unique uuids; duplicate-free `roots` (enforced by `set_root`)
and hence duplicate-free `leaves`; leaf edges stay inside the collection;
`ref_infos` keys mirror `roots` in order (both are appended and removed in
lock-step); the symmetric edge invariant; every stored reference range was
validated by `add_leaf` against its root's snippet; and each node's `roots`
list is ordered consistently with the collection's node order. -/
def WF (s : Store) : Prop :=
  (idsOf s).Nodup ∧
  (∀ n ∈ s, n.roots.Nodup) ∧
  (∀ n ∈ s, n.leaves.Nodup) ∧
  (∀ n ∈ s, ∀ l ∈ n.leaves, l ∈ idsOf s) ∧
  (∀ n ∈ s, n.refInfos.map Prod.fst = n.roots) ∧
  (∀ a ∈ s, ∀ b ∈ s, (a.uuid ∈ b.leaves ↔ b.uuid ∈ a.roots)) ∧
  (∀ n ∈ s, ∀ p ∈ n.refInfos, ∀ r ∈ s, r.uuid = p.1 →
    1 ≤ p.2.refStart ∧ p.2.refStart ≤ (r.snippet.nLines : Int) ∧
    stopExceeds p.2.refStop (r.snippet.nLines : Int) = false) ∧
  (∀ n ∈ s, n.roots = (idsOf s).filter (fun i => i ∈ n.roots))

instance : DecidablePred WF := fun s => by unfold WF; infer_instance

/-- A snippet as `Snippet(name, content)` builds it (all optional arguments
defaulted). -/
def rawSnippet (name content : String) : Snippet := ⟨name, content, 1, "raw", "", ""⟩

/-- A node as `Node(snippet)` builds it: fresh, detached, empty comment. -/
def freshNode (u : Nat) (sn : Snippet) : Node := ⟨u, sn, "", [], [], []⟩

/-! ### Basic facts about the store primitives -/

theorem Snippet.one_le_nLines (s : Snippet) : 1 ≤ s.nLines := by
  unfold Snippet.nLines; omega

theorem findNode_uuid {s : Store} {i : Nat} {n : Node} (h : findNode s i = some n) :
    n.uuid = i := by
  have := List.find?_some h
  simpa using this

theorem findNode_mem {s : Store} {i : Nat} {n : Node} (h : findNode s i = some n) :
    n ∈ s :=
  List.mem_of_find?_eq_some h

theorem findNode_map (g : Node → Node) (hg : ∀ n, (g n).uuid = n.uuid)
    (s : Store) (i : Nat) : findNode (s.map g) i = (findNode s i).map g := by
  unfold findNode
  rw [List.find?_map]
  have : ((fun n : Node => n.uuid == i) ∘ g) = (fun n : Node => n.uuid == i) := by
    funext n; simp [hg n]
  rw [this]

theorem findNode_updateNode (f : Node → Node) (hf : ∀ n, (f n).uuid = n.uuid)
    (s : Store) (i j : Nat) :
    findNode (updateNode s i f) j =
      (findNode s j).map (fun n => if n.uuid = i then f n else n) := by
  unfold updateNode
  exact findNode_map _ (fun n => by by_cases h : n.uuid = i <;> simp [h, hf]) s j

theorem pyDictSet_nil {α : Type} (k : Nat) (v : α) :
    pyDictSet ([] : List (Nat × α)) k v = [(k, v)] := by
  simp [pyDictSet, pyDictHas]

theorem pyDictSet_of_not_has {α : Type} {d : List (Nat × α)} {k : Nat} (v : α)
    (h : pyDictHas d k = false) : pyDictSet d k v = d ++ [(k, v)] := by
  simp [pyDictSet, h]

/-- `add_leaf` when the caller is already one of the leaf's roots: the range
checks pass (with the default `ref_start=1`), `set_root` raises
`NodeReferenceException` before mutating anything, and the store is
returned unchanged. -/
theorem addLeaf_dup (s : Store) (r l : Nat) (R L : Node)
    (hR : findNode s r = some R) (hL : findNode s l = some L) (hdup : r ∈ L.roots) :
    addLeaf s r l (some 1) none = (s, some PyError.nodeReferenceError) := by
  have h1 : (1 : Int) ≤ (R.snippet.nLines : Int) := by
    exact_mod_cast R.snippet.one_le_nLines
  unfold addLeaf setRoot
  rw [hR, hL]
  simp [stopExceeds, hdup]
  omega

/-! ### Concrete collections used by individual claims -/

/-- Two roots and one shared leaf: `r1.add_leaf(t)` then `r2.add_leaf(t)`. -/
def c2Store : Store :=
  (addLeaf ((addLeaf [freshNode 0 (rawSnippet "r1" "a"), freshNode 1 (rawSnippet "r2" "b"),
    freshNode 2 (rawSnippet "t" "c")] 0 2 (some 1) none).1) 1 2 (some 1) none).1

/-- Claim C2: `remove_node` on a member with no leaves is claimed to strip the
target from every root's `leaves`, leaving the symmetry invariant intact.
The code iterates `target.roots` while `remove_leaf → reset_root` pops from
that very list, so every second root is skipped: after removing node `2`
(roots `[0, 1]`), the call reports success and node `0` is cleaned, but node
`1` still lists the removed node `2` among its leaves — a dangling edge that
breaks the claimed invariant. -/
theorem c2_removeNode_skips_alternate_roots :
    WF c2Store ∧
    (findNode c2Store 2).map Node.roots = some [0, 1] ∧
    (findNode c2Store 2).map Node.leaves = some [] ∧
    (removeNode c2Store [0, 1, 2] 2).2 = none ∧
    (removeNode c2Store [0, 1, 2] 2).1.2 = [0, 1] ∧
    (findNode (removeNode c2Store [0, 1, 2] 2).1.1 0).map Node.leaves = some [] ∧
    (findNode (removeNode c2Store [0, 1, 2] 2).1.1 1).map Node.leaves = some [2] := by
  decide

/-- The pure 3-cycle `0 → 1 → 2 → 0`. -/
def c4Store : Store :=
  (addLeaf ((addLeaf ((addLeaf [freshNode 0 (rawSnippet "x" "a"),
    freshNode 1 (rawSnippet "y" "b"), freshNode 2 (rawSnippet "z" "c")]
    0 1 (some 1) none).1) 1 2 (some 1) none).1) 2 0 (some 1) none).1

/-- Claim C4: on the pure 3-cycle the algorithm does terminate, returns one
tree and no orphans — but the tree has FOUR layers, the last one empty
(`[[0], [1], [2], []]`), not the claimed three singleton layers: the visited
back-edge produces an empty flattened sublist which `build_tree` still
appends, and `build_layers` turns it into a trailing empty layer.  The
repository's own test (`test__resolve_trees__circular_references`, asserting
`len(layer) == 1` for every layer) fails on this output. -/
theorem c4_resolveTree_cycle_trailing_empty_layer :
    WF c4Store ∧
    (findNode c4Store 0).map Node.leaves = some [1] ∧
    (findNode c4Store 1).map Node.leaves = some [2] ∧
    (findNode c4Store 2).map Node.leaves = some [0] ∧
    resolveTree c4Store [0, 1, 2] = ([[[0], [1], [2], []]], []) := by
  decide

/-- Two unrelated nodes, and separately a root with one leaf. -/
def c7Store : Store := [freshNode 0 (rawSnippet "a" "a"), freshNode 1 (rawSnippet "b" "b")]

/-- `0 → 1` built by `add_leaf`. -/
def c7StoreB : Store := (addLeaf c7Store 0 1 (some 1) none).1

/-- Claim C7: when `leaf ∉ self.leaves`, `remove_leaf` raises the bare
`ValueError` coming out of `list.index` — not the claimed
`NodeRemovalException("not a leaf")` (which is what the repository's own
`test__remove_leaf` expects).  The success path does behave as claimed:
removing a real leaf pops it from `leaves`, pops the caller from the leaf's
`roots`, and drops the leaf's `ref_infos` entry. -/
theorem c7_removeLeaf_valueError_not_removalError :
    (findNode c7Store 0).map Node.leaves = some [] ∧
    removeLeaf c7Store 0 1 = (c7Store, some PyError.indexValueError) ∧
    (removeLeaf c7StoreB 0 1).2 = none ∧
    (findNode (removeLeaf c7StoreB 0 1).1 0).map Node.leaves = some [] ∧
    (findNode (removeLeaf c7StoreB 0 1).1 1).map Node.roots = some [] ∧
    (findNode (removeLeaf c7StoreB 0 1).1 1).map Node.refInfos = some [] := by
  decide

/-- Claim C10: `add_leaf_reference` defaults `ref_start=None`; for any member
root the call reaches `Node.add_leaf`, where `None < 1` raises `TypeError`.
Only `ValueError` is caught and re-raised as `NodeReferenceException`, so the
`TypeError` propagates unchanged and the store is not modified. -/
theorem c10_addLeafReference_default_typeError (s : Store) (order : List Nat)
    (rootId targetId : Nat) (R : Node) (refStop : Option Int)
    (hmem : rootId ∈ order) (hfind : findNode s rootId = some R) :
    addLeafReference s order rootId targetId none refStop =
      (s, some PyError.typeError) := by
  unfold addLeafReference addLeaf
  rw [hfind]
  simp [hmem]

/-- A two-node collection for the C10 witness. -/
def c10Store : Store := [freshNode 3 (rawSnippet "p" "u"), freshNode 4 (rawSnippet "q" "v")]

/-- Witness for `c10_addLeafReference_default_typeError` at a concrete
two-node collection. -/
theorem c10_addLeafReference_default_typeError_witness :
    addLeafReference c10Store [3, 4] 3 4 none none = (c10Store, some PyError.typeError) :=
  c10_addLeafReference_default_typeError c10Store [3, 4] 3 4
    (freshNode 3 (rawSnippet "p" "u")) none (by decide) (by decide)

/-- Claim C9: `add_leaf` never checks `ref_stop`'s ordering or lower bound.
For any stop value that is zero, negative, or merely not above the validating
snippet's line count, the call succeeds and stores the `ReferenceInfo`
exactly as given — in particular a range with `stop < start` is stored.  The
zero case works because `ref_stop and ...` short-circuits on falsy `0`,
bypassing the stop-line bound comparison for every line count. -/
theorem c9_refStop_unvalidated (s : Store) (rootId leafId : Nat) (R L : Node)
    (refStart refStop : Int)
    (hR : findNode s rootId = some R) (hL : findNode s leafId = some L)
    (hdup : rootId ∉ L.roots)
    (hs1 : 1 ≤ refStart) (hs2 : refStart ≤ (R.snippet.nLines : Int))
    (hstop : refStop ≤ 0 ∨ refStop ≤ (R.snippet.nLines : Int)) :
    (∀ nL : Int, stopExceeds (some 0) nL = false) ∧
    addLeaf s rootId leafId (some refStart) (some refStop) =
      (updateNode (updateNode s leafId (fun n =>
        { n with roots := n.roots ++ [rootId],
                 refInfos := pyDictSet n.refInfos rootId ⟨refStart, some refStop⟩ }))
        rootId (fun n => { n with leaves := n.leaves ++ [leafId] }), none) := by
  have hn1 : (1 : Int) ≤ (R.snippet.nLines : Int) := by
    exact_mod_cast R.snippet.one_le_nLines
  have hse : stopExceeds (some refStop) ((R.snippet.nLines : Int)) = false := by
    unfold stopExceeds
    by_cases h0 : refStop = 0
    · simp [h0]
    · simp only [h0, if_false, decide_eq_false_iff_not, not_lt]
      omega
  refine ⟨fun nL => by simp [stopExceeds], ?_⟩
  have hrange : ¬(refStart < 1 ∨ refStart > (R.snippet.nLines : Int)) := by omega
  unfold addLeaf setRoot
  rw [hR, hL]
  simp [hrange, hse, hdup]

/-- The collection for the C9 witness: a three-line root and a one-line
leaf. -/
def c9Store : Store :=
  [freshNode 0 (rawSnippet "root" "p\nq\nr"), freshNode 1 (rawSnippet "leaf" "s")]

/-- Witness for `c9_refStop_unvalidated`: `add_leaf(leaf, ref_start=2,
ref_stop=1)` succeeds on a three-line snippet and stores the backwards range
`(2, 1)`. -/
theorem c9_refStop_unvalidated_witness :
    (addLeaf c9Store 0 1 (some 2) (some 1)).2 = none ∧
    (findNode (addLeaf c9Store 0 1 (some 2) (some 1)).1 1).map Node.refInfos =
      some [(0, ⟨2, some 1⟩)] := by
  have h := c9_refStop_unvalidated c9Store 0 1 (freshNode 0 (rawSnippet "root" "p\nq\nr"))
    (freshNode 1 (rawSnippet "leaf" "s")) 2 1 (by decide) (by decide) (by decide)
    (by decide) (by decide) (Or.inr (by decide))
  rw [h.2]
  decide

/-- A one-line root and a two-line leaf, detached. -/
def c3Store : Store :=
  [freshNode 0 (rawSnippet "a" "a"), freshNode 1 (rawSnippet "b" "x\ny")]

/-- Claim C3 as stated is false: it claims the range is validated against the
LEAF's snippet, so that `A.add_leaf(B, ref_start=n_lines(B))` succeeds.  Here
`A` has 1 line and `B` has 2: the call with `ref_start = n_lines(B) = 2` is
rejected (a `ValueError`, the code's actual range error), because the code
validates against `self.snippet.n_lines`, i.e. `A`'s own snippet. -/
theorem c3_addLeaf_range_counterexample :
    (freshNode 1 (rawSnippet "b" "x\ny")).snippet.nLines = 2 ∧
    (findNode c3Store 1).map (fun n => n.snippet.nLines) = some 2 ∧
    addLeaf c3Store 0 1 (some 2) none = (c3Store, some PyError.rangeValueError) := by
  decide

/-- Claim C3 amended: `add_leaf` validates `ref_start` against the CALLING
node's own snippet (`self.snippet.n_lines`), raising the range `ValueError`
(not `NodeReferenceException`): `ref_start=0` and `ref_start=n_lines(A)+1`
fail, while `ref_start=1` and `ref_start=n_lines(A)` succeed whenever `A` is
not already a root of `B`. -/
theorem c3_addLeaf_range_amended (s : Store) (a b : Nat) (A B : Node)
    (hA : findNode s a = some A) (hB : findNode s b = some B) (hdup : a ∉ B.roots) :
    (addLeaf s a b (some 0) none).2 = some PyError.rangeValueError ∧
    (addLeaf s a b (some ((A.snippet.nLines : Int) + 1)) none).2 =
      some PyError.rangeValueError ∧
    (addLeaf s a b (some 1) none).2 = none ∧
    (addLeaf s a b (some (A.snippet.nLines : Int)) none).2 = none := by
  have hn1 : (1 : Int) ≤ (A.snippet.nLines : Int) := by
    exact_mod_cast A.snippet.one_le_nLines
  refine ⟨?_, ?_, ?_, ?_⟩
  · unfold addLeaf
    rw [hA]
    have hc : ((0 : Int) < 1 ∨ (0 : Int) > (A.snippet.nLines : Int)) := by omega
    simp [hc]
  · unfold addLeaf
    rw [hA]
    have hc : ((A.snippet.nLines : Int) + 1 < 1 ∨
        (A.snippet.nLines : Int) + 1 > (A.snippet.nLines : Int)) := by omega
    simp [hc]
  · unfold addLeaf setRoot
    rw [hA, hB]
    have hc : ¬((1 : Int) < 1 ∨ (1 : Int) > (A.snippet.nLines : Int)) := by omega
    have hz : ¬(A.snippet.nLines = 0) := by
      have := A.snippet.one_le_nLines; omega
    simp [hc, hz, stopExceeds, hdup]
  · unfold addLeaf setRoot
    rw [hA, hB]
    have hc : ¬((A.snippet.nLines : Int) < 1 ∨
        (A.snippet.nLines : Int) > (A.snippet.nLines : Int)) := by omega
    have hz : ¬(A.snippet.nLines = 0) := by
      have := A.snippet.one_le_nLines; omega
    simp [hc, hz, stopExceeds, hdup]

/-- Witness for `c3_addLeaf_range_amended` on the same two-node collection:
with a one-line `A`, `ref_start=0` and `ref_start=2` fail while `ref_start=1`
succeeds (twice, as both success cases coincide). -/
theorem c3_addLeaf_range_amended_witness :
    (addLeaf c3Store 0 1 (some 0) none).2 = some PyError.rangeValueError ∧
    (addLeaf c3Store 0 1 (some 2) none).2 = some PyError.rangeValueError ∧
    (addLeaf c3Store 0 1 (some 1) none).2 = none := by
  have h := c3_addLeaf_range_amended c3Store 0 1 (freshNode 0 (rawSnippet "a" "a"))
    (freshNode 1 (rawSnippet "b" "x\ny")) (by decide) (by decide) (by decide)
  exact ⟨h.1, by rw [show ((((freshNode 0 (rawSnippet "a" "a")).snippet.nLines : Int) + 1) = (2 : Int)) from by decide] at h; exact h.2.1, h.2.2.1⟩

/-- A single detached node for the C6 witness. -/
def c6Store : Store := [freshNode 0 (rawSnippet "a" "a")]

/-- Claim C6: a self-loop registers exactly once — `A.add_leaf(A)` on an
edge-free node succeeds, leaving `A.roots = [A]`, `A.leaves = [A]` and the
self-keyed `ReferenceInfo`; a second `A.add_leaf(A)` raises
`NodeReferenceException` and changes nothing.  In general `R.add_leaf(L)`
(default arguments) raises `NodeReferenceException` whenever `R` is already
in `L.roots`, returning the store untouched — the raise happens before either
edge list or `L.ref_infos` is modified. -/
theorem c6_selfLoop_addLeaf (s : Store) (a : Nat) (A : Node)
    (hA : findNode s a = some A)
    (hroots : A.roots = []) (hleaves : A.leaves = []) (hrefs : A.refInfos = []) :
    (addLeaf s a a (some 1) none).2 = none ∧
    findNode (addLeaf s a a (some 1) none).1 a =
      some { A with roots := [a], leaves := [a], refInfos := [(a, ⟨1, none⟩)] } ∧
    addLeaf (addLeaf s a a (some 1) none).1 a a (some 1) none =
      ((addLeaf s a a (some 1) none).1, some PyError.nodeReferenceError) ∧
    (∀ (s2 : Store) (r l : Nat) (R2 L2 : Node), findNode s2 r = some R2 →
      findNode s2 l = some L2 → r ∈ L2.roots →
      addLeaf s2 r l (some 1) none = (s2, some PyError.nodeReferenceError)) := by
  have hn1 : (1 : Int) ≤ (A.snippet.nLines : Int) := by
    exact_mod_cast A.snippet.one_le_nLines
  have huuid : A.uuid = a := findNode_uuid hA
  have heq : addLeaf s a a (some 1) none =
      (updateNode (updateNode s a (fun n =>
        { n with roots := n.roots ++ [a],
                 refInfos := pyDictSet n.refInfos a ⟨1, none⟩ }))
        a (fun n => { n with leaves := n.leaves ++ [a] }), none) := by
    unfold addLeaf setRoot
    rw [hA]
    simp [stopExceeds, hroots]
    omega
  have hfind : findNode (addLeaf s a a (some 1) none).1 a =
      some { A with roots := [a], leaves := [a], refInfos := [(a, ⟨1, none⟩)] } := by
    rw [heq]
    rw [findNode_updateNode (fun n => { n with leaves := n.leaves ++ [a] })
          (fun n => rfl) _ a a,
        findNode_updateNode (fun n =>
          { n with roots := n.roots ++ [a],
                   refInfos := pyDictSet n.refInfos a ⟨1, none⟩ })
          (fun n => rfl) _ a a, hA]
    simp [huuid, hroots, hleaves, hrefs, pyDictSet_nil]
  refine ⟨by rw [heq], hfind, ?_, ?_⟩
  · exact addLeaf_dup _ a a _ _ hfind hfind (by simp)
  · intro s2 r l R2 L2 hR2 hL2 hmem
    exact addLeaf_dup s2 r l R2 L2 hR2 hL2 hmem

/-- Witness for `c6_selfLoop_addLeaf` on a concrete one-node collection. -/
theorem c6_selfLoop_addLeaf_witness :
    (addLeaf c6Store 0 0 (some 1) none).2 = none ∧
    (findNode (addLeaf c6Store 0 0 (some 1) none).1 0).map Node.roots = some [0] ∧
    (findNode (addLeaf c6Store 0 0 (some 1) none).1 0).map Node.leaves = some [0] ∧
    addLeaf (addLeaf c6Store 0 0 (some 1) none).1 0 0 (some 1) none =
      ((addLeaf c6Store 0 0 (some 1) none).1, some PyError.nodeReferenceError) := by
  have h := c6_selfLoop_addLeaf c6Store 0 (freshNode 0 (rawSnippet "a" "a"))
    (by decide) (by decide) (by decide) (by decide)
  exact ⟨h.1, by rw [h.2.1]; decide, by rw [h.2.1]; decide, h.2.2.1⟩

/-- Nodes `[0, 1, 2]`; `1.add_leaf(2)` then `0.add_leaf(2)`, so node 2's
recorded roots are `[1, 0]` — the reverse of the collection order. -/
def c1Store : Store :=
  (addLeaf ((addLeaf [freshNode 0 (rawSnippet "a" "a"), freshNode 1 (rawSnippet "b" "b"),
    freshNode 2 (rawSnippet "c" "c")] 1 2 (some 1) none).1) 0 2 (some 1) none).1

/-- Claim C1 counterexample: `from_dict` replays edges in nodes-list order,
so node 2's roots come back as `[0, 1]` instead of the recorded `[1, 0]`, and
`from_dict(to_dict(C)).to_dict() ≠ C.to_dict()` — the roots list order is not
preserved. -/
theorem c1_roundTrip_counterexample :
    (fromDict (collToDict c1Store)).2 = none ∧
    (findNode c1Store 2).map Node.roots = some [1, 0] ∧
    (findNode (fromDict (collToDict c1Store)).1 2).map Node.roots = some [0, 1] ∧
    collToDict (fromDict (collToDict c1Store)).1 ≠ collToDict c1Store := by
  decide

/-- Same shape as `c1Store` on different uuids, for the C8 counterexample. -/
def c8Store : Store :=
  (addLeaf ((addLeaf [freshNode 5 (rawSnippet "p" "p"), freshNode 6 (rawSnippet "q" "q"),
    freshNode 7 (rawSnippet "r" "r")] 6 7 (some 1) none).1) 5 7 (some 1) none).1

/-- The persisted document recording node 7's roots as `[6, 5]`. -/
def c8Data : CollectionData := collToDict c8Store

/-- Claim C8 counterexample: on this document the replay produces roots
`[5, 6]` for node 7 while the recorded list is `[6, 5]`, and `from_dict`
returns the disagreeing collection without signalling any error — there is no
internal assertion comparing the replay against the recorded lists. -/
theorem c8_fromDict_no_mismatch_error :
    (pyDictGet? (mkDict c8Data.nodes) 7).map NodeData.roots = some [6, 5] ∧
    (fromDict c8Data).2 = none ∧
    (findNode (fromDict c8Data).1 7).map Node.roots = some [5, 6] := by
  decide

/-- A `NodeData` entry with the recorded `roots` list blanked out. -/
def stripND (nd : NodeData) : NodeData :=
  ⟨nd.uuid, nd.snippet, nd.comment, [], nd.leaves, nd.refInfos⟩

/-- The persisted document with every recorded `roots` list blanked out. -/
def stripRoots (d : CollectionData) : CollectionData :=
  ⟨d.nodes.map stripND⟩

theorem pyDictGet?_map_val {α β : Type} (f : α → β) (d : List (Nat × α)) (k : Nat) :
    pyDictGet? (d.map (fun p => (p.1, f p.2))) k = (pyDictGet? d k).map f := by
  induction d with
  | nil => rfl
  | cons p rest ih =>
    by_cases h : p.1 == k
    · simp [pyDictGet?, List.find?_cons, h]
    · simpa [pyDictGet?, List.find?_cons, h] using ih

theorem pyDictHas_map_val {α β : Type} (f : α → β) (d : List (Nat × α)) (k : Nat) :
    pyDictHas (d.map (fun p => (p.1, f p.2))) k = pyDictHas d k := by
  induction d with
  | nil => rfl
  | cons p rest ih => by_cases h : p.1 == k <;> simp_all [pyDictHas]

theorem pyDictSet_map_val {α β : Type} (f : α → β) (d : List (Nat × α)) (k : Nat) (v : α) :
    pyDictSet (d.map (fun p => (p.1, f p.2))) k (f v) =
      (pyDictSet d k v).map (fun p => (p.1, f p.2)) := by
  unfold pyDictSet
  rw [pyDictHas_map_val]
  by_cases h : pyDictHas d k
  · rw [if_pos h, if_pos h, List.map_map, List.map_map]
    apply List.map_congr_left
    intro p _
    by_cases hk : p.1 = k <;> simp [hk]
  · rw [if_neg h, if_neg h, List.map_append]
    simp

theorem mkDict_map_strip (l : List NodeData) :
    mkDict (l.map stripND) = (mkDict l).map (fun p => (p.1, stripND p.2)) := by
  have key : ∀ (acc : List (Nat × NodeData)),
      (l.map stripND).foldl (fun d nd => pyDictSet d nd.uuid nd)
        (acc.map (fun p => (p.1, stripND p.2))) =
      (l.foldl (fun d nd => pyDictSet d nd.uuid nd) acc).map
        (fun p => (p.1, stripND p.2)) := by
    induction l with
    | nil => intro acc; simp
    | cons nd rest ih =>
      intro acc
      simp only [List.map_cons, List.foldl_cons]
      rw [show (stripND nd).uuid = nd.uuid from rfl]
      rw [pyDictSet_map_val stripND acc nd.uuid nd]
      exact ih _
  simpa [mkDict] using key []

theorem replayAll_strip (dd : List (Nat × NodeData)) (s : Store) (pairs : List (Nat × Nat)) :
    replayAll (dd.map (fun p => (p.1, stripND p.2))) s pairs = replayAll dd s pairs := by
  induction pairs generalizing s with
  | nil => rfl
  | cons pr rest ih =>
    obtain ⟨r, l⟩ := pr
    show (match replayEdge _ s r l with
      | (s1, some e) => (s1, some e)
      | (s1, none) => replayAll _ s1 rest) =
      (match replayEdge dd s r l with
      | (s1, some e) => (s1, some e)
      | (s1, none) => replayAll dd s1 rest)
    have hedge : replayEdge (dd.map (fun p => (p.1, stripND p.2))) s r l =
        replayEdge dd s r l := by
      unfold replayEdge
      rw [pyDictGet?_map_val]
      cases pyDictGet? dd l with
      | none => rfl
      | some leafData => rfl
    rw [hedge]
    cases replayEdge dd s r l with
    | mk s1 e =>
      cases e with
      | none => exact ih s1
      | some e => rfl

/-- Claim C8 amended: `from_dict` rebuilds all nodes parentless and replays
the recorded leaf edges with their recorded `ref_infos`, but performs NO
consistency assertion against the recorded `roots` lists — it never reads
them at all, so a replay that disagrees with them is returned silently. -/
theorem c8_fromDict_ignores_recorded_roots (d : CollectionData) :
    fromDict (stripRoots d) = fromDict d := by
  unfold fromDict stripRoots
  simp only [mkDict_map_strip, List.map_map, List.flatMap_map]
  rw [show ((fun p : Nat × NodeData => Node.fromDict p.2) ∘
      (fun p : Nat × NodeData => (p.1, stripND p.2))) =
      (fun p : Nat × NodeData => Node.fromDict p.2) from rfl]
  rw [show (fun p : Nat × NodeData =>
        ((p.1, stripND p.2) : Nat × NodeData).2.leaves.map
          (fun l => (((p.1, stripND p.2) : Nat × NodeData).1, l))) =
      (fun p : Nat × NodeData => p.2.leaves.map (fun l => (p.1, l))) from rfl]
  exact replayAll_strip _ _ _

/-! ### The worklist traversal behind `remove_node_and_its_leaves` -/

theorem childrenOf_subset_allIds (s : Store) (i : Nat) :
    ∀ l ∈ childrenOf s i, l ∈ allIds s := by
  intro l hl
  unfold childrenOf at hl
  cases hfind : findNode s i with
  | none => rw [hfind] at hl; simp at hl
  | some n =>
    rw [hfind] at hl
    have hmem : n ∈ s := findNode_mem hfind
    unfold allIds
    exact List.mem_flatMap.2 ⟨n, hmem, by simp [hl]⟩

theorem capacity_extend (s : Store) (x : Nat) (acc : List Nat) :
    ∀ (u : List Nat), u.Nodup → x ∈ u → x ∉ acc →
    capacity s u acc = capacity s u (acc ++ [x]) + nodeWeight s x := by
  intro u
  induction u with
  | nil => intro _ hx; simp at hx
  | cons v rest ih =>
    intro hnd hx hnacc
    have hvr : v ∉ rest := (List.nodup_cons.1 hnd).1
    have hndr : rest.Nodup := (List.nodup_cons.1 hnd).2
    by_cases hxv : x = v
    · subst hxv
      have h1 : decide (¬ x ∈ acc) = true := by simpa using hnacc
      have h2 : ¬ (decide (¬ x ∈ acc ++ [x]) = true) := by simp
      have hcong : rest.filter (fun i => ¬ i ∈ acc ++ [x]) =
          rest.filter (fun i => ¬ i ∈ acc) := by
        apply List.filter_congr
        intro y hy
        have hyx : ¬ y = x := fun h => hvr (h ▸ hy)
        simp [List.mem_append, hyx]
      unfold capacity
      rw [List.filter_cons, List.filter_cons, if_pos h1, if_neg h2, hcong]
      simp [Nat.add_comm]
    · have hx' : x ∈ rest := by
        rcases List.mem_cons.1 hx with h | h
        · exact absurd h.symm (fun h2 => hxv h2.symm)
        · exact h
      have hvx : ¬ v = x := fun h => hxv h.symm
      unfold capacity at ih ⊢
      by_cases hva : v ∈ acc
      · have d1 : ¬ (decide (¬ v ∈ acc) = true) := by simpa using hva
        have d2 : ¬ (decide (¬ v ∈ acc ++ [x]) = true) := by
          simp [List.mem_append, hva]
        rw [List.filter_cons, List.filter_cons, if_neg d1, if_neg d2]
        exact ih hndr hx' hnacc
      · have d1 : decide (¬ v ∈ acc) = true := by simpa using hva
        have d2 : decide (¬ v ∈ acc ++ [x]) = true := by
          simp [List.mem_append, hva, hvx]
        rw [List.filter_cons, List.filter_cons, if_pos d1, if_pos d2]
        simp only [List.map_cons, List.sum_cons]
        rw [ih hndr hx' hnacc]
        omega

theorem collectLeaves_main (s : Store) (u : List Nat) (hU : u.Nodup)
    (hChild : ∀ i : Nat, ∀ l ∈ childrenOf s i, l ∈ u) :
    ∀ (fuel : Nat) (pending acc : List Nat),
    pending.length + capacity s u acc ≤ fuel →
    (∀ x ∈ pending, x ∈ u) →
    (∀ x ∈ acc, x ∈ u) →
    acc.Nodup →
    (∀ i ∈ acc, ∀ l ∈ childrenOf s i, l ∈ acc ∨ l ∈ pending) →
    (∀ x ∈ acc, x ∈ collectLeaves s fuel pending acc) ∧
    (∀ x ∈ pending, x ∈ collectLeaves s fuel pending acc) ∧
    (collectLeaves s fuel pending acc).Nodup ∧
    (∀ i ∈ collectLeaves s fuel pending acc, ∀ l ∈ childrenOf s i,
      l ∈ collectLeaves s fuel pending acc) := by
  intro fuel
  induction fuel with
  | zero =>
    intro pending acc hfuel _ _ hnd hinv
    have hp : pending = [] := by
      cases pending with
      | nil => rfl
      | cons a b => simp at hfuel
    subst hp
    refine ⟨fun x hx => hx, by simp, hnd, ?_⟩
    intro i hi l hl
    rcases hinv i hi l hl with h | h
    · exact h
    · simp at h
  | succ fuel ih =>
    intro pending acc hfuel hpend hacc hnd hinv
    cases pending with
    | nil =>
      refine ⟨fun x hx => hx, by simp, hnd, ?_⟩
      intro i hi l hl
      rcases hinv i hi l hl with h | h
      · exact h
      · simp at h
    | cons x rest =>
      by_cases hxacc : x ∈ acc
      · have heq : collectLeaves s (fuel + 1) (x :: rest) acc =
            collectLeaves s fuel rest acc := by
          rw [show collectLeaves s (fuel + 1) (x :: rest) acc =
              if x ∈ acc then collectLeaves s fuel rest acc
              else collectLeaves s fuel (rest ++ childrenOf s x) (acc ++ [x]) from rfl,
            if_pos hxacc]
        rw [heq]
        have := ih rest acc
          (by simp at hfuel; omega)
          (fun y hy => hpend y (List.mem_cons_of_mem _ hy))
          hacc hnd
          (by
            intro i hi l hl
            rcases hinv i hi l hl with h | h
            · exact Or.inl h
            · rcases List.mem_cons.1 h with h2 | h2
              · exact Or.inl (h2 ▸ hxacc)
              · exact Or.inr h2)
        refine ⟨this.1, ?_, this.2.2.1, this.2.2.2⟩
        intro y hy
        rcases List.mem_cons.1 hy with h2 | h2
        · exact h2 ▸ this.1 x hxacc
        · exact this.2.1 y h2
      · have heq : collectLeaves s (fuel + 1) (x :: rest) acc =
            collectLeaves s fuel (rest ++ childrenOf s x) (acc ++ [x]) := by
          rw [show collectLeaves s (fuel + 1) (x :: rest) acc =
              if x ∈ acc then collectLeaves s fuel rest acc
              else collectLeaves s fuel (rest ++ childrenOf s x) (acc ++ [x]) from rfl,
            if_neg hxacc]
        rw [heq]
        have hxu : x ∈ u := hpend x (List.mem_cons_self x rest)
        have hcap := capacity_extend s x acc u hU hxu hxacc
        have := ih (rest ++ childrenOf s x) (acc ++ [x])
          (by
            simp only [List.length_append]
            simp only [List.length_cons] at hfuel
            unfold nodeWeight at hcap
            omega)
          (by
            intro y hy
            rcases List.mem_append.1 hy with h2 | h2
            · exact hpend y (List.mem_cons_of_mem _ h2)
            · exact hChild x y h2)
          (by
            intro y hy
            rcases List.mem_append.1 hy with h2 | h2
            · exact hacc y h2
            · simp at h2; exact h2 ▸ hxu)
          (by
            simp [List.nodup_append, hnd, hxacc])
          (by
            intro i hi l hl
            rcases List.mem_append.1 hi with h2 | h2
            · rcases hinv i h2 l hl with h3 | h3
              · exact Or.inl (List.mem_append_left _ h3)
              · rcases List.mem_cons.1 h3 with h4 | h4
                · exact Or.inl (by simp [h4])
                · exact Or.inr (List.mem_append_left _ h4)
            · simp at h2
              subst h2
              exact Or.inr (List.mem_append_right _ hl))
        refine ⟨?_, ?_, this.2.2.1, this.2.2.2⟩
        · intro y hy
          exact this.1 y (List.mem_append_left _ hy)
        · intro y hy
          rcases List.mem_cons.1 hy with h2 | h2
          · exact h2 ▸ this.1 x (by simp)
          · exact this.2.1 y (List.mem_append_left _ h2)

theorem collectLeaves_sound (s : Store) (P : Nat → Prop)
    (hstep : ∀ i l, l ∈ childrenOf s i → P i → P l) :
    ∀ (fuel : Nat) (pending acc : List Nat),
    (∀ x ∈ acc, P x) → (∀ x ∈ pending, P x) →
    ∀ x ∈ collectLeaves s fuel pending acc, P x := by
  intro fuel
  induction fuel with
  | zero =>
    intro pending acc haccP _ x hx
    exact haccP x hx
  | succ fuel ih =>
    intro pending acc haccP hpendP x hx
    cases pending with
    | nil => exact haccP x hx
    | cons y rest =>
      by_cases hy : y ∈ acc
      · rw [show collectLeaves s (fuel + 1) (y :: rest) acc =
            collectLeaves s fuel rest acc from by
              rw [show collectLeaves s (fuel + 1) (y :: rest) acc =
                  if y ∈ acc then collectLeaves s fuel rest acc
                  else collectLeaves s fuel (rest ++ childrenOf s y) (acc ++ [y]) from rfl,
                if_pos hy]] at hx
        exact ih rest acc haccP (fun z hz => hpendP z (List.mem_cons_of_mem _ hz)) x hx
      · rw [show collectLeaves s (fuel + 1) (y :: rest) acc =
            collectLeaves s fuel (rest ++ childrenOf s y) (acc ++ [y]) from by
              rw [show collectLeaves s (fuel + 1) (y :: rest) acc =
                  if y ∈ acc then collectLeaves s fuel rest acc
                  else collectLeaves s fuel (rest ++ childrenOf s y) (acc ++ [y]) from rfl,
                if_neg hy]] at hx
        have hPy : P y := hpendP y (List.mem_cons_self y rest)
        exact ih (rest ++ childrenOf s y) (acc ++ [y])
          (by
            intro z hz
            rcases List.mem_append.1 hz with h2 | h2
            · exact haccP z h2
            · simp at h2; exact h2 ▸ hPy)
          (by
            intro z hz
            rcases List.mem_append.1 hz with h2 | h2
            · exact hpendP z (List.mem_cons_of_mem _ h2)
            · exact hstep y z h2 hPy)
          x hx

/-- The `removedSet` traversal collects exactly the reachable leaf-set:
it contains the start, is duplicate-free, closed under leaf edges, and agrees
with the `Reach` relation in both directions. -/
theorem removedSet_spec (s : Store) (targetId : Nat) :
    targetId ∈ removedSet s targetId ∧
    (removedSet s targetId).Nodup ∧
    (∀ i ∈ removedSet s targetId, ∀ l ∈ childrenOf s i, l ∈ removedSet s targetId) ∧
    (∀ i ∈ removedSet s targetId, Reach s targetId i) ∧
    (∀ i, Reach s targetId i → i ∈ removedSet s targetId) := by
  have hU : (reachUniverse s targetId).Nodup := List.nodup_dedup _
  have hChild : ∀ i : Nat, ∀ l ∈ childrenOf s i, l ∈ reachUniverse s targetId := by
    intro i l hl
    unfold reachUniverse
    rw [List.mem_dedup]
    exact List.mem_cons_of_mem _ (childrenOf_subset_allIds s i l hl)
  have hmain := collectLeaves_main s (reachUniverse s targetId) hU hChild
    (capacity s (reachUniverse s targetId) [] + 1) [targetId] []
    (by simp; omega)
    (by
      intro x hx
      simp at hx
      subst hx
      unfold reachUniverse
      rw [List.mem_dedup]
      exact List.mem_cons_self _ _)
    (by simp) (by simp) (by simp)
  have hsound := collectLeaves_sound s (Reach s targetId)
    (by
      intro i l hl hri
      unfold childrenOf at hl
      cases hfind : findNode s i with
      | none => rw [hfind] at hl; simp at hl
      | some n =>
        rw [hfind] at hl
        exact Reach.step hri hfind hl)
    (capacity s (reachUniverse s targetId) [] + 1) [targetId] []
    (by simp)
    (by intro x hx; simp at hx; subst hx; exact Reach.refl)
  unfold removedSet
  refine ⟨hmain.2.1 targetId (by simp), hmain.2.2.1, hmain.2.2.2, hsound, ?_⟩
  intro i hri
  induction hri with
  | refl => exact hmain.2.1 targetId (by simp)
  | step hr hfind hl ihr =>
    refine hmain.2.2.2 _ ihr _ ?_
    unfold childrenOf
    rw [hfind]
    assumption

/-- Claim C5 (the operation is modelled from the spec, see
`removeNodeAndItsLeaves`): the call returns the full reachable leaf-set of
`target` — it contains `target`, is duplicate-free (cycles and self-loops are
visited once), and coincides with leaf-reachability in both directions — and
the surviving collection contains none of the removed nodes, keeps no leaf,
root or `ref_infos` edge into them, and `resolve_links()` on it yields no
link referencing a removed node. -/
theorem c5_removeNodeAndItsLeaves_spec (s : Store) (targetId : Nat) :
    targetId ∈ (removeNodeAndItsLeaves s targetId).2 ∧
    (removeNodeAndItsLeaves s targetId).2.Nodup ∧
    (∀ i ∈ (removeNodeAndItsLeaves s targetId).2, Reach s targetId i) ∧
    (∀ i, Reach s targetId i → i ∈ (removeNodeAndItsLeaves s targetId).2) ∧
    (∀ n ∈ (removeNodeAndItsLeaves s targetId).1,
      n.uuid ∉ (removeNodeAndItsLeaves s targetId).2 ∧
      (∀ l ∈ n.leaves, l ∉ (removeNodeAndItsLeaves s targetId).2) ∧
      (∀ r ∈ n.roots, r ∉ (removeNodeAndItsLeaves s targetId).2) ∧
      (∀ p ∈ n.refInfos, p.1 ∉ (removeNodeAndItsLeaves s targetId).2)) ∧
    (∀ lk ∈ resolveLinks (removeNodeAndItsLeaves s targetId).1,
      lk.root ∉ (removeNodeAndItsLeaves s targetId).2 ∧
      lk.leaf ∉ (removeNodeAndItsLeaves s targetId).2) := by
  obtain ⟨h1, h2, _h3, h4, h5⟩ := removedSet_spec s targetId
  have hsnd : (removeNodeAndItsLeaves s targetId).2 = removedSet s targetId := rfl
  have hnodes : ∀ n ∈ (removeNodeAndItsLeaves s targetId).1,
      n.uuid ∉ removedSet s targetId ∧
      (∀ l ∈ n.leaves, l ∉ removedSet s targetId) ∧
      (∀ r ∈ n.roots, r ∉ removedSet s targetId) ∧
      (∀ p ∈ n.refInfos, p.1 ∉ removedSet s targetId) := by
    intro n hn
    unfold removeNodeAndItsLeaves at hn
    simp only [List.mem_map, List.mem_filter] at hn
    obtain ⟨m, ⟨_hm, hmns⟩, rfl⟩ := hn
    refine ⟨by simpa using hmns, ?_, ?_, ?_⟩
    · intro l hl
      simp only [List.mem_filter] at hl
      simpa using hl.2
    · intro r hr
      simp only [List.mem_filter] at hr
      simpa using hr.2
    · intro p hp
      simp only [List.mem_filter] at hp
      simpa using hp.2
  refine ⟨h1, h2, fun i hi => h4 i hi, fun i hri => h5 i hri, hnodes, ?_⟩
  intro lk hlk
  unfold resolveLinks at hlk
  rw [List.mem_flatMap] at hlk
  obtain ⟨n, hn, hlk2⟩ := hlk
  rw [List.mem_map] at hlk2
  obtain ⟨p, hp, rfl⟩ := hlk2
  obtain ⟨hu, hleaves, _, _⟩ := hnodes n hn
  have hpmem : p.2 ∈ n.leaves := by
    have h := List.mem_enum_iff_getElem?.1 hp
    exact List.getElem?_mem h
  exact ⟨hu, hleaves p.2 hpmem⟩

/-! ### Support lemmas for the round-trip proof -/

theorem mem_findNode {s : Store} (hnd : (idsOf s).Nodup) {n : Node} (hn : n ∈ s) :
    findNode s n.uuid = some n := by
  induction s with
  | nil => simp at hn
  | cons m rest ih =>
    have hids : idsOf (m :: rest) = m.uuid :: idsOf rest := rfl
    rw [hids] at hnd
    obtain ⟨hm1, hm2⟩ := List.nodup_cons.1 hnd
    rcases List.mem_cons.1 hn with h | h
    · subst h
      unfold findNode
      exact List.find?_cons_of_pos rest (by simp)
    · have hne : ¬ ((m.uuid == n.uuid) = true) := by
        simp only [beq_iff_eq]
        intro he
        exact hm1 (he ▸ List.mem_map.2 ⟨n, h, rfl⟩)
      unfold findNode at ih ⊢
      rw [@List.find?_cons_of_neg _ (fun x => x.uuid == n.uuid) m rest hne]
      exact ih hm2 h

theorem uuid_inj {s : Store} (hnd : (idsOf s).Nodup) {n m : Node}
    (hn : n ∈ s) (hm : m ∈ s) (h : n.uuid = m.uuid) : n = m := by
  have h1 := mem_findNode hnd hn
  have h2 := mem_findNode hnd hm
  rw [h, h2] at h1
  exact (Option.some_inj.1 h1).symm

theorem findNode_of_mem_ids {s : Store} {l : Nat} (h : l ∈ idsOf s) :
    ∃ L, findNode s l = some L ∧ L ∈ s ∧ L.uuid = l := by
  obtain ⟨n, hn, rfl⟩ := List.mem_map.1 h
  have hsome : (s.find? (fun m => m.uuid == n.uuid)).isSome := by
    rw [List.find?_isSome]
    exact ⟨n, hn, by simp⟩
  obtain ⟨L, hL⟩ := Option.isSome_iff_exists.1 hsome
  exact ⟨L, hL, findNode_mem hL, findNode_uuid hL⟩

theorem pyDictGet?_mem {α : Type} {d : List (Nat × α)} {k : Nat}
    (h : k ∈ d.map Prod.fst) : ∃ v, pyDictGet? d k = some v ∧ (k, v) ∈ d := by
  have hs : (d.find? (fun p => p.1 == k)).isSome := by
    rw [List.find?_isSome]
    obtain ⟨p, hp, he⟩ := List.mem_map.1 h
    exact ⟨p, hp, by simp [he]⟩
  obtain ⟨p, hp⟩ := Option.isSome_iff_exists.1 hs
  have h1 : p.1 = k := by simpa using List.find?_some hp
  have h2 : p ∈ d := List.mem_of_find?_eq_some hp
  refine ⟨p.2, ?_, ?_⟩
  · unfold pyDictGet?
    rw [hp]
    rfl
  · rw [← h1]
    exact h2

theorem pyDictGet?_eq_none {α : Type} {d : List (Nat × α)} {k : Nat}
    (h : k ∉ d.map Prod.fst) : pyDictGet? d k = none := by
  unfold pyDictGet?
  have hf : d.find? (fun p => p.1 == k) = none := by
    rw [List.find?_eq_none]
    intro p hp
    simp only [beq_iff_eq]
    intro he
    exact h (List.mem_map.2 ⟨p, hp, he⟩)
  rw [hf]
  rfl

theorem pyDictHas_filterMap {α : Type} (d : List (Nat × α)) (done : List Nat) (k : Nat)
    (h : k ∉ done) :
    pyDictHas (done.filterMap (fun i => (pyDictGet? d i).map (fun v => (i, v)))) k =
      false := by
  unfold pyDictHas
  rw [List.any_eq_false]
  intro p hp
  obtain ⟨i, hi, hg⟩ := List.mem_filterMap.1 hp
  cases hget : pyDictGet? d i with
  | none => rw [hget] at hg; simp at hg
  | some v =>
    rw [hget] at hg
    have hg2 : ((i, v) : Nat × α) = p := by simpa using hg
    subst hg2
    simp only [beq_iff_eq]
    intro he
    exact h (he ▸ hi)

theorem filterMap_congr_of_mem {α β : Type} {L : List α} {f g : α → Option β}
    (h : ∀ x ∈ L, f x = g x) : L.filterMap f = L.filterMap g := by
  induction L with
  | nil => rfl
  | cons x rest ih =>
    simp only [List.filterMap_cons]
    rw [h x (List.mem_cons_self x rest),
        ih (fun y hy => h y (List.mem_cons_of_mem _ hy))]

theorem mkDict_go : ∀ (l : List NodeData) (acc : List (Nat × NodeData)),
    (l.map NodeData.uuid).Nodup →
    (∀ k ∈ acc.map Prod.fst, k ∉ l.map NodeData.uuid) →
    l.foldl (fun d nd => pyDictSet d nd.uuid nd) acc =
      acc ++ l.map (fun nd => (nd.uuid, nd)) := by
  intro l
  induction l with
  | nil => intro acc _ _; simp
  | cons nd rest ih =>
    intro acc hnd hdisj
    rw [List.map_cons] at hnd
    obtain ⟨h1, h2⟩ := List.nodup_cons.1 hnd
    simp only [List.foldl_cons]
    have hnot : pyDictHas acc nd.uuid = false := by
      unfold pyDictHas
      rw [List.any_eq_false]
      intro p hp
      simp only [beq_iff_eq]
      intro he
      exact hdisj p.1 (List.mem_map.2 ⟨p, hp, rfl⟩) (by simp [he])
    rw [pyDictSet_of_not_has _ hnot]
    rw [ih (acc ++ [(nd.uuid, nd)]) h2 ?_]
    · simp
    · intro k hk
      simp only [List.map_append, List.mem_append] at hk
      rcases hk with hk | hk
      · intro hin
        exact hdisj k hk (List.mem_cons_of_mem _ hin)
      · simp at hk
        subst hk
        exact h1

theorem mkDict_eq_of_nodup (l : List NodeData) (h : (l.map NodeData.uuid).Nodup) :
    mkDict l = l.map (fun nd => (nd.uuid, nd)) := by
  have := mkDict_go l [] h (by simp)
  simpa [mkDict] using this

theorem pyDictGet?_toDict (s : Store) (i : Nat) :
    pyDictGet? (s.map (fun n => (n.uuid, Node.toDict n))) i =
      (findNode s i).map Node.toDict := by
  induction s with
  | nil => rfl
  | cons n rest ih =>
    by_cases h : (n.uuid == i) = true
    · unfold pyDictGet? findNode
      simp only [List.map_cons]
      rw [@List.find?_cons_of_pos _ (fun p => p.1 == i) (n.uuid, n.toDict)
            (rest.map (fun n => (n.uuid, n.toDict))) (by simpa using h),
          @List.find?_cons_of_pos _ (fun x => x.uuid == i) n rest h]
      rfl
    · unfold pyDictGet? findNode at ih ⊢
      simp only [List.map_cons]
      rw [@List.find?_cons_of_neg _ (fun p => p.1 == i) (n.uuid, n.toDict)
            (rest.map (fun n => (n.uuid, n.toDict))) (by simpa using h),
          @List.find?_cons_of_neg _ (fun x => x.uuid == i) n rest h]
      exact ih

theorem updateNode_map (s : Store) (g : Node → Node) (i : Nat) (f : Node → Node) :
    updateNode (s.map g) i f =
      s.map (fun n => if (g n).uuid = i then f (g n) else g n) := by
  unfold updateNode
  rw [List.map_map]
  rfl

theorem filterMap_get_off_keys {α : Type} (d : List (Nat × α)) (L : List Nat) :
    L.filterMap (fun i => (pyDictGet? d i).map (fun v => (i, v))) =
      (L.filter (fun i => i ∈ d.map Prod.fst)).filterMap
        (fun i => (pyDictGet? d i).map (fun v => (i, v))) := by
  induction L with
  | nil => rfl
  | cons x rest ih =>
    by_cases hx : x ∈ d.map Prod.fst
    · rw [List.filter_cons, if_pos (by simpa using hx)]
      simp only [List.filterMap_cons]
      rw [ih]
    · have hnone : pyDictGet? d x = none := pyDictGet?_eq_none hx
      rw [List.filter_cons, if_neg (by simpa using hx)]
      simp only [List.filterMap_cons, hnone, Option.map_none]
      exact ih

theorem keys_filterMap_get {α : Type} : ∀ (d : List (Nat × α)),
    (d.map Prod.fst).Nodup →
    (d.map Prod.fst).filterMap (fun i => (pyDictGet? d i).map (fun v => (i, v))) = d := by
  intro d
  induction d with
  | nil => intro _; rfl
  | cons p rest ih =>
    intro hnd
    rw [List.map_cons] at hnd
    obtain ⟨hp, hrest⟩ := List.nodup_cons.1 hnd
    rw [List.map_cons, List.filterMap_cons]
    have hhead : pyDictGet? (p :: rest) p.1 = some p.2 := by
      unfold pyDictGet?
      rw [@List.find?_cons_of_pos _ (fun q => q.1 == p.1) p rest (by simp)]
      rfl
    have hh2 : (pyDictGet? (p :: rest) p.1).map (fun v => (p.1, v)) =
        some ((p.1, p.2) : Nat × α) := by
      rw [hhead]
      rfl
    rw [hh2]
    have hcong : (rest.map Prod.fst).filterMap
        (fun i => (pyDictGet? (p :: rest) i).map (fun v => (i, v))) =
        (rest.map Prod.fst).filterMap
        (fun i => (pyDictGet? rest i).map (fun v => (i, v))) := by
      apply filterMap_congr_of_mem
      intro i hi
      have hne : ¬ ((fun q : Nat × α => q.1 == i) p = true) := by
        simp only [beq_iff_eq]
        intro he
        exact hp (he ▸ hi)
      unfold pyDictGet?
      rw [@List.find?_cons_of_neg _ (fun q => q.1 == i) p rest hne]
    rw [hcong, ih hrest]

/-- The per-node state of the `from_dict` replay while the recorded edges of
the root `cur` are being replayed: the roots in `done` are fully processed
and `taken` is the prefix of `cur`'s recorded leaves already replayed.  The
node keeps its recorded leaves order, and its roots (with their `ref_infos`)
appear in the order the processed roots occur in the document. -/
def midNode (done : List Nat) (cur : Nat) (taken : List Nat) (m : Node) : Node :=
  ⟨m.uuid, m.snippet, m.comment,
    done.filter (fun i => i ∈ m.roots) ++
      (if cur ∈ m.roots ∧ m.uuid ∈ taken then [cur] else []),
    (if m.uuid ∈ done then m.leaves else if m.uuid = cur then taken else []),
    done.filterMap (fun i => (pyDictGet? m.refInfos i).map (fun v => (i, v))) ++
      (if cur ∈ m.roots ∧ m.uuid ∈ taken then
        ((pyDictGet? m.refInfos cur).map (fun v => (cur, v))).toList else [])⟩

/-- The per-node state of the replay after the roots in `done` are done. -/
def doneNode (done : List Nat) (m : Node) : Node :=
  ⟨m.uuid, m.snippet, m.comment,
    done.filter (fun i => i ∈ m.roots),
    (if m.uuid ∈ done then m.leaves else []),
    done.filterMap (fun i => (pyDictGet? m.refInfos i).map (fun v => (i, v)))⟩

theorem midNode_nil (done : List Nat) (cur : Nat) (m : Node) :
    midNode done cur [] m = doneNode done m := by
  unfold midNode doneNode
  simp only [List.not_mem_nil, and_false, if_false, List.append_nil]
  congr 1
  by_cases h1 : m.uuid ∈ done
  · simp [h1]
  · by_cases h2 : m.uuid = cur <;> simp [h1, h2]

theorem midNode_done (s : Store) (done : List Nat) (r m : Node)
    (hnd : (idsOf s).Nodup) (hr : r ∈ s) (hm : m ∈ s)
    (hsym : m.uuid ∈ r.leaves ↔ r.uuid ∈ m.roots)
    (hlock : m.refInfos.map Prod.fst = m.roots) :
    midNode done r.uuid r.leaves m = doneNode (done ++ [r.uuid]) m := by
  unfold midNode doneNode
  have hroots : done.filter (fun i => i ∈ m.roots) ++
      (if r.uuid ∈ m.roots ∧ m.uuid ∈ r.leaves then [r.uuid] else []) =
      (done ++ [r.uuid]).filter (fun i => i ∈ m.roots) := by
    rw [List.filter_append]
    congr 1
    by_cases h : r.uuid ∈ m.roots
    · simp [h, hsym.2 h]
    · simp [h]
  have hleaves : (if m.uuid ∈ done then m.leaves else
      if m.uuid = r.uuid then r.leaves else []) =
      (if m.uuid ∈ done ++ [r.uuid] then m.leaves else []) := by
    by_cases h1 : m.uuid ∈ done
    · simp [h1]
    · by_cases h2 : m.uuid = r.uuid
      · have hmr : m = r := uuid_inj hnd hm hr h2
        simp [h1, h2, hmr]
      · simp [h1, h2]
  have hrefs : done.filterMap (fun i => (pyDictGet? m.refInfos i).map (fun v => (i, v))) ++
      (if r.uuid ∈ m.roots ∧ m.uuid ∈ r.leaves then
        ((pyDictGet? m.refInfos r.uuid).map (fun v => (r.uuid, v))).toList else []) =
      (done ++ [r.uuid]).filterMap
        (fun i => (pyDictGet? m.refInfos i).map (fun v => (i, v))) := by
    rw [List.filterMap_append]
    congr 1
    by_cases h : r.uuid ∈ m.roots
    · simp [h, hsym.2 h, List.filterMap_cons]
      cases hg : pyDictGet? m.refInfos r.uuid with
      | none => rfl
      | some v => rfl
    · have hnone : pyDictGet? m.refInfos r.uuid = none := by
        apply pyDictGet?_eq_none
        rw [hlock]
        exact h
      simp [h, List.filterMap_cons, hnone]
  rw [hroots, hleaves, hrefs]

theorem doneNode_id (s : Store) (m : Node) (hm : m ∈ s)
    (hlock : m.refInfos.map Prod.fst = m.roots)
    (hkeysnd : m.roots.Nodup)
    (hord : m.roots = (idsOf s).filter (fun i => i ∈ m.roots)) :
    doneNode (idsOf s) m = m := by
  unfold doneNode
  have hleaves : m.uuid ∈ idsOf s := List.mem_map.2 ⟨m, hm, rfl⟩
  have hrefs : (idsOf s).filterMap
      (fun i => (pyDictGet? m.refInfos i).map (fun v => (i, v))) = m.refInfos := by
    rw [filterMap_get_off_keys, hlock, ← hord,
        show m.roots = m.refInfos.map Prod.fst from hlock.symm]
    exact keys_filterMap_get m.refInfos (by rw [hlock]; exact hkeysnd)
  rw [if_pos hleaves, ← hord, hrefs]

/-- One edge of the `from_dict` replay, on the partially rebuilt store:
replaying `(r.uuid, l)` advances the processed-leaves prefix by `l`. -/
theorem replayEdge_step (s : Store) (hnd : (idsOf s).Nodup)
    (hclosed : ∀ n ∈ s, ∀ l2 ∈ n.leaves, l2 ∈ idsOf s)
    (hlock : ∀ n ∈ s, n.refInfos.map Prod.fst = n.roots)
    (hsym : ∀ a ∈ s, ∀ b ∈ s, (a.uuid ∈ b.leaves ↔ b.uuid ∈ a.roots))
    (hvalid : ∀ n ∈ s, ∀ p ∈ n.refInfos, ∀ r2 ∈ s, r2.uuid = p.1 →
      1 ≤ p.2.refStart ∧ p.2.refStart ≤ (r2.snippet.nLines : Int) ∧
      stopExceeds p.2.refStop (r2.snippet.nLines : Int) = false)
    (r : Node) (hr : r ∈ s) (done taken : List Nat) (l : Nat)
    (hdone : r.uuid ∉ done) (hlmem : l ∈ r.leaves) (hltaken : l ∉ taken) :
    replayEdge (s.map (fun n => (n.uuid, Node.toDict n)))
        (s.map (midNode done r.uuid taken)) r.uuid l =
      (s.map (midNode done r.uuid (taken ++ [l])), none) := by
  have hlid : l ∈ idsOf s := hclosed r hr l hlmem
  obtain ⟨L, hfindL, hLmem, hLuuid⟩ := findNode_of_mem_ids hlid
  have hrootmem : r.uuid ∈ L.roots := (hsym L hLmem r hr).1 (hLuuid ▸ hlmem)
  obtain ⟨ri, hget, hrimem⟩ := pyDictGet?_mem (d := L.refInfos) (k := r.uuid)
    (by rw [hlock L hLmem]; exact hrootmem)
  obtain ⟨hv1, hv2, hv3⟩ := hvalid L hLmem (r.uuid, ri) hrimem r hr rfl
  have hv1b : 1 ≤ ri.refStart := hv1
  have hv2b : ri.refStart ≤ (r.snippet.nLines : Int) := hv2
  have hv3b : stopExceeds ri.refStop (r.snippet.nLines : Int) = false := hv3
  have hfr : findNode (s.map (midNode done r.uuid taken)) r.uuid =
      some (midNode done r.uuid taken r) := by
    rw [findNode_map (midNode done r.uuid taken) (fun n => rfl) s r.uuid,
        mem_findNode hnd hr]
    rfl
  have hfl : findNode (s.map (midNode done r.uuid taken)) l =
      some (midNode done r.uuid taken L) := by
    rw [findNode_map (midNode done r.uuid taken) (fun n => rfl) s l, hfindL]
    rfl
  have hdup : r.uuid ∉ (midNode done r.uuid taken L).roots := by
    unfold midNode
    intro hmem
    rcases List.mem_append.1 hmem with h | h
    · exact hdone (List.mem_filter.1 h).1
    · by_cases hc : r.uuid ∈ L.roots ∧ L.uuid ∈ taken
      · rw [if_pos hc] at h
        exact hltaken (hLuuid ▸ hc.2)
      · rw [if_neg hc] at h
        simp at h
  have hrange : ¬(ri.refStart < 1 ∨
      ri.refStart > ((midNode done r.uuid taken r).snippet.nLines : Int)) := by
    have : (midNode done r.uuid taken r).snippet = r.snippet := rfl
    rw [this]
    omega

  have hstop : stopExceeds ri.refStop
      (((midNode done r.uuid taken r).snippet.nLines : Int)) = false := by
    have : (midNode done r.uuid taken r).snippet = r.snippet := rfl
    rw [this]
    exact hv3b
  have hL2 : pyDictGet? (Node.toDict L).refInfos r.uuid = some ri := hget
  have hsetres : setRoot (s.map (midNode done r.uuid taken)) l r.uuid
      ri.refStart ri.refStop =
      (updateNode (s.map (midNode done r.uuid taken)) l (fun n =>
        { n with roots := n.roots ++ [r.uuid],
                 refInfos := pyDictSet n.refInfos r.uuid ⟨ri.refStart, ri.refStop⟩ }),
       none) := by
    unfold setRoot
    rw [hfl]
    simp [hdup]
  have hal : addLeaf (s.map (midNode done r.uuid taken)) r.uuid l
      (some ri.refStart) ri.refStop =
      (updateNode (updateNode (s.map (midNode done r.uuid taken)) l (fun n =>
        { n with roots := n.roots ++ [r.uuid],
                 refInfos := pyDictSet n.refInfos r.uuid ⟨ri.refStart, ri.refStop⟩ }))
        r.uuid (fun n => { n with leaves := n.leaves ++ [l] }), none) := by
    unfold addLeaf
    rw [hfr]
    simp [hrange, hstop, hsetres]
  have hstore : updateNode (updateNode (s.map (midNode done r.uuid taken)) l (fun n =>
        { n with roots := n.roots ++ [r.uuid],
                 refInfos := pyDictSet n.refInfos r.uuid ⟨ri.refStart, ri.refStop⟩ }))
        r.uuid (fun n => { n with leaves := n.leaves ++ [l] }) =
      s.map (midNode done r.uuid (taken ++ [l])) := by
    rw [updateNode_map, updateNode_map]
    apply List.map_congr_left
    intro n hn
    have heta : (⟨ri.refStart, ri.refStop⟩ : ReferenceInfo) = ri := rfl
    rw [heta]
    simp only [midNode]
    by_cases h1 : n.uuid = l
    · have hnL : n = L := uuid_inj hnd hn hLmem (h1.trans hLuuid.symm)
      have hcur : r.uuid ∈ n.roots := hnL ▸ hrootmem
      have hgetn : pyDictGet? n.refInfos r.uuid = some ri := hnL ▸ hget
      have hnot1 : ¬ (r.uuid ∈ n.roots ∧ n.uuid ∈ taken) := by
        intro hc
        exact hltaken (h1 ▸ hc.2)
      have hyes2 : r.uuid ∈ n.roots ∧ n.uuid ∈ taken ++ [l] :=
        ⟨hcur, List.mem_append_right _ (by simp [h1])⟩
      have hnt : n.uuid ∉ taken := h1 ▸ hltaken
      have hsetapp : pyDictSet
          (done.filterMap (fun i => (pyDictGet? n.refInfos i).map (fun v => (i, v))))
          r.uuid ri =
          done.filterMap (fun i => (pyDictGet? n.refInfos i).map (fun v => (i, v))) ++
            [(r.uuid, ri)] :=
        pyDictSet_of_not_has _ (pyDictHas_filterMap _ _ _ hdone)
      rw [if_pos h1]
      by_cases h2 : n.uuid = r.uuid
      · have hndone : ¬ (n.uuid ∈ done) := h2 ▸ hdone
        rw [if_pos h2]
        congr 1
        · simp [hnot1, hyes2, hnt, hcur]
        · simp [h2, hdone]
        · simp [hnot1, hyes2, hnt, hcur, hgetn, hsetapp]
      · rw [if_neg h2]
        congr 1
        · simp [hnot1, hyes2, hnt, hcur]
        · by_cases hd : n.uuid ∈ done <;> simp [hd, h2]
        · simp [hnot1, hyes2, hnt, hcur, hgetn, hsetapp]
    · have hcond : (r.uuid ∈ n.roots ∧ n.uuid ∈ taken ++ [l]) ↔
          (r.uuid ∈ n.roots ∧ n.uuid ∈ taken) := by
        constructor
        · rintro ⟨ha, hb⟩
          rcases List.mem_append.1 hb with hb | hb
          · exact ⟨ha, hb⟩
          · simp at hb
            exact absurd hb h1
        · rintro ⟨ha, hb⟩
          exact ⟨ha, List.mem_append_left _ hb⟩
      rw [if_neg h1]
      by_cases h2 : n.uuid = r.uuid
      · have hndone : ¬ (n.uuid ∈ done) := h2 ▸ hdone
        rw [if_pos h2]
        congr 1
        · by_cases hc : r.uuid ∈ n.roots ∧ n.uuid ∈ taken
          · simp [hc, hcond.2 hc]
          · have hc2 : ¬ (r.uuid ∈ n.roots ∧ n.uuid ∈ taken ++ [l]) :=
              fun hx => hc (hcond.1 hx)
            simp [hc, hc2]
            intro hx
            first
            | exact ⟨fun ht => hc ⟨hx, ht⟩, h1⟩
            | (rintro (ht | he)
               exacts [absurd ⟨hx, ht⟩ hc, absurd he h1])
        · simp [h2, hdone]
        · by_cases hc : r.uuid ∈ n.roots ∧ n.uuid ∈ taken
          · simp [hc, hcond.2 hc]
          · have hc2 : ¬ (r.uuid ∈ n.roots ∧ n.uuid ∈ taken ++ [l]) :=
              fun hx => hc (hcond.1 hx)
            simp [hc, hc2]
            intro hx
            first
            | exact ⟨fun ht => hc ⟨hx, ht⟩, h1⟩
            | (rintro (ht | he)
               exacts [absurd ⟨hx, ht⟩ hc, absurd he h1])
      · rw [if_neg h2]
        congr 1
        · by_cases hc : r.uuid ∈ n.roots ∧ n.uuid ∈ taken
          · simp [hc, hcond.2 hc]
          · have hc2 : ¬ (r.uuid ∈ n.roots ∧ n.uuid ∈ taken ++ [l]) :=
              fun hx => hc (hcond.1 hx)
            simp [hc, hc2]
            intro hx
            first
            | exact ⟨fun ht => hc ⟨hx, ht⟩, h1⟩
            | (rintro (ht | he)
               exacts [absurd ⟨hx, ht⟩ hc, absurd he h1])
        · by_cases hd : n.uuid ∈ done <;> simp [hd, h2]
        · by_cases hc : r.uuid ∈ n.roots ∧ n.uuid ∈ taken
          · simp [hc, hcond.2 hc]
          · have hc2 : ¬ (r.uuid ∈ n.roots ∧ n.uuid ∈ taken ++ [l]) :=
              fun hx => hc (hcond.1 hx)
            simp [hc, hc2]
            intro hx
            first
            | exact ⟨fun ht => hc ⟨hx, ht⟩, h1⟩
            | (rintro (ht | he)
               exacts [absurd ⟨hx, ht⟩ hc, absurd he h1])
  unfold replayEdge
  rw [pyDictGet?_toDict, hfindL]
  show (match pyDictGet? (Node.toDict L).refInfos r.uuid with
    | none => (s.map (midNode done r.uuid taken), some PyError.keyError)
    | some ri2 => addLeaf (s.map (midNode done r.uuid taken)) r.uuid l
        (some ri2.refStart) ri2.refStop) =
    (s.map (midNode done r.uuid (taken ++ [l])), none)
  rw [hL2]
  show addLeaf (s.map (midNode done r.uuid taken)) r.uuid l
      (some ri.refStart) ri.refStop =
    (s.map (midNode done r.uuid (taken ++ [l])), none)
  rw [hal, hstore]

/-- Replaying all remaining recorded leaves of one root advances the
processed prefix to the whole leaves list. -/
theorem replay_root (s : Store) (hnd : (idsOf s).Nodup)
    (hclosed : ∀ n ∈ s, ∀ l2 ∈ n.leaves, l2 ∈ idsOf s)
    (hleavesnd : ∀ n ∈ s, n.leaves.Nodup)
    (hlock : ∀ n ∈ s, n.refInfos.map Prod.fst = n.roots)
    (hsym : ∀ a ∈ s, ∀ b ∈ s, (a.uuid ∈ b.leaves ↔ b.uuid ∈ a.roots))
    (hvalid : ∀ n ∈ s, ∀ p ∈ n.refInfos, ∀ r2 ∈ s, r2.uuid = p.1 →
      1 ≤ p.2.refStart ∧ p.2.refStart ≤ (r2.snippet.nLines : Int) ∧
      stopExceeds p.2.refStop (r2.snippet.nLines : Int) = false)
    (r : Node) (hr : r ∈ s) (done : List Nat) (hdone : r.uuid ∉ done) :
    ∀ (todo taken : List Nat), r.leaves = taken ++ todo →
    ∀ (restPairs : List (Nat × Nat)),
    replayAll (s.map (fun n => (n.uuid, Node.toDict n)))
        (s.map (midNode done r.uuid taken))
        (todo.map (fun l2 => (r.uuid, l2)) ++ restPairs) =
      replayAll (s.map (fun n => (n.uuid, Node.toDict n)))
        (s.map (midNode done r.uuid r.leaves)) restPairs := by
  intro todo
  induction todo with
  | nil =>
    intro taken hsplit restPairs
    rw [List.append_nil] at hsplit
    rw [hsplit]
    simp
  | cons l todo2 ih =>
    intro taken hsplit restPairs
    have hlmem : l ∈ r.leaves := by
      rw [hsplit]
      exact List.mem_append_right _ (List.mem_cons_self _ _)
    have hltaken : l ∉ taken := by
      have hnd2 := hleavesnd r hr
      rw [hsplit, List.nodup_append] at hnd2
      intro hmem
      exact hnd2.2.2 hmem (List.mem_cons_self _ _)
    have hstep := replayEdge_step s hnd hclosed hlock hsym hvalid r hr done taken l
      hdone hlmem hltaken
    show (match replayEdge (s.map (fun n => (n.uuid, Node.toDict n)))
        (s.map (midNode done r.uuid taken)) r.uuid l with
      | (s1, some e) => (s1, some e)
      | (s1, none) => replayAll (s.map (fun n => (n.uuid, Node.toDict n))) s1
          (todo2.map (fun l2 => (r.uuid, l2)) ++ restPairs)) =
      replayAll (s.map (fun n => (n.uuid, Node.toDict n)))
        (s.map (midNode done r.uuid r.leaves)) restPairs
    rw [hstep]
    show replayAll (s.map (fun n => (n.uuid, Node.toDict n)))
        (s.map (midNode done r.uuid (taken ++ [l])))
        (todo2.map (fun l2 => (r.uuid, l2)) ++ restPairs) =
      replayAll (s.map (fun n => (n.uuid, Node.toDict n)))
        (s.map (midNode done r.uuid r.leaves)) restPairs
    exact ih (taken ++ [l]) (by rw [hsplit, List.append_assoc]; rfl) restPairs

/-- Replaying the recorded edges of the remaining suffix of roots completes
the rebuilt store. -/
theorem replay_outer (s : Store) (hnd : (idsOf s).Nodup)
    (hclosed : ∀ n ∈ s, ∀ l2 ∈ n.leaves, l2 ∈ idsOf s)
    (hleavesnd : ∀ n ∈ s, n.leaves.Nodup)
    (hlock : ∀ n ∈ s, n.refInfos.map Prod.fst = n.roots)
    (hsym : ∀ a ∈ s, ∀ b ∈ s, (a.uuid ∈ b.leaves ↔ b.uuid ∈ a.roots))
    (hvalid : ∀ n ∈ s, ∀ p ∈ n.refInfos, ∀ r2 ∈ s, r2.uuid = p.1 →
      1 ≤ p.2.refStart ∧ p.2.refStart ≤ (r2.snippet.nLines : Int) ∧
      stopExceeds p.2.refStop (r2.snippet.nLines : Int) = false) :
    ∀ (s2 s1 : List Node), s = s1 ++ s2 →
    replayAll (s.map (fun n => (n.uuid, Node.toDict n)))
        (s.map (doneNode (idsOf s1)))
        (s2.flatMap (fun n => n.leaves.map (fun l2 => (n.uuid, l2)))) =
      (s.map (doneNode (idsOf s)), none) := by
  intro s2
  induction s2 with
  | nil =>
    intro s1 hsplit
    have hs1 : s1 = s := by rw [hsplit, List.append_nil]
    rw [hs1]
    rfl
  | cons r s2t ih =>
    intro s1 hsplit
    have hr : r ∈ s := by
      rw [hsplit]
      exact List.mem_append_right _ (List.mem_cons_self _ _)
    have hids : idsOf s = idsOf s1 ++ (r.uuid :: idsOf s2t) := by
      rw [hsplit]
      simp [idsOf]
    have hdone : r.uuid ∉ idsOf s1 := by
      have hnd2 := hnd
      rw [hids, List.nodup_append] at hnd2
      intro hmem
      exact hnd2.2.2 hmem (List.mem_cons_self _ _)
    rw [List.flatMap_cons]
    have h0 : s.map (doneNode (idsOf s1)) =
        s.map (midNode (idsOf s1) r.uuid []) :=
      List.map_congr_left (fun n _ => (midNode_nil (idsOf s1) r.uuid n).symm)
    rw [h0]
    rw [replay_root s hnd hclosed hleavesnd hlock hsym hvalid r hr (idsOf s1) hdone
      r.leaves [] (by simp)
      (s2t.flatMap (fun n => n.leaves.map (fun l2 => (n.uuid, l2))))]
    have h1 : s.map (midNode (idsOf s1) r.uuid r.leaves) =
        s.map (doneNode (idsOf s1 ++ [r.uuid])) :=
      List.map_congr_left (fun n hn =>
        midNode_done s (idsOf s1) r n hnd hr hn (hsym n hn r hr) (hlock n hn))
    rw [h1]
    have h2 : idsOf s1 ++ [r.uuid] = idsOf (s1 ++ [r]) := by
      simp [idsOf]
    rw [h2]
    exact ih (s1 ++ [r]) (by rw [hsplit, List.append_assoc]; rfl)

/-- Claim C1 amended: the round trip `from_dict(to_dict(C))` reproduces `C`
exactly — node list order, uuids, snippets, comments, leaves lists,
`ref_infos` — PROVIDED every node's `roots` list is ordered consistently
with the collection's node order (the `WF` hypothesis; the counterexample
shows this proviso is necessary: `from_dict` replays edges in nodes-list
order, so a `roots` list recorded in any other order comes back permuted
into nodes-list order). -/
theorem c1_roundTrip_amended (s : Store) (hwf : WF s) :
    fromDict (collToDict s) = (s, none) := by
  obtain ⟨hnd, hrootsnd, hleavesnd, hclosed, hlock, hsym, hvalid, hord⟩ := hwf
  unfold fromDict collToDict
  have hkeys : ((s.map Node.toDict).map NodeData.uuid).Nodup := by
    rw [List.map_map]
    exact hnd
  have hdd : mkDict (s.map Node.toDict) =
      s.map (fun n => (n.uuid, Node.toDict n)) := by
    rw [mkDict_eq_of_nodup _ hkeys, List.map_map]
    rfl
  rw [hdd]
  show replayAll (s.map (fun n => (n.uuid, Node.toDict n)))
      ((s.map (fun n => (n.uuid, Node.toDict n))).map (fun p => Node.fromDict p.2))
      ((s.map (fun n => (n.uuid, Node.toDict n))).flatMap
        (fun p => p.2.leaves.map (fun l2 => (p.1, l2)))) = (s, none)
  have hstore0 : (s.map (fun n => (n.uuid, Node.toDict n))).map
      (fun p => Node.fromDict p.2) = s.map (doneNode (idsOf ([] : Store))) := by
    rw [List.map_map]
    apply List.map_congr_left
    intro n _
    rfl
  rw [hstore0]
  have hpairs : (s.map (fun n => (n.uuid, Node.toDict n))).flatMap
      (fun p => p.2.leaves.map (fun l2 => (p.1, l2))) =
      s.flatMap (fun n => n.leaves.map (fun l2 => (n.uuid, l2))) := by
    rw [List.flatMap_map]
    rfl
  rw [hpairs]
  rw [replay_outer s hnd hclosed hleavesnd hlock hsym hvalid s [] rfl]
  have hfinal : s.map (doneNode (idsOf s)) = s :=
    (List.map_congr_left (fun n hn =>
      doneNode_id s n hn (hlock n hn) (hrootsnd n hn) (hord n hn))).trans
      (List.map_id s)
  rw [hfinal]

/-- A two-node collection with one edge, for the C1 witness. -/
def c1wStore : Store :=
  (addLeaf [freshNode 0 (rawSnippet "a" "a"), freshNode 1 (rawSnippet "b" "b")]
    0 1 (some 1) none).1

/-- Witness for `c1_roundTrip_amended` at a concrete well-formed two-node
collection. -/
theorem c1_roundTrip_amended_witness :
    WF c1wStore ∧ fromDict (collToDict c1wStore) = (c1wStore, none) :=
  ⟨by decide, c1_roundTrip_amended c1wStore (by decide)⟩

end Codememo
